import Mathlib

/-!
# A verification development for `main.go` (per-day URL hit report)

The program reads lines `<epoch seconds>|<url>`, groups them by UTC calendar
day, counts the hits of every URL per day and prints the days in ascending
order, each with its URLs by descending hit count.

The file embeds `main.go` shallowly:

* a Go `string` is the list of its characters (`GoString`); every operation
  the program performs on text (splitting on `|`, decimal parsing, `len`,
  slicing of the decimal text of an integer) looks at ASCII characters only;
* Go's `int` is the 64-bit `int` of the usual platforms; the values computed
  here are modelled in `Int`/`Nat`, with explicit reduction modulo `2^64` at
  the two places of the standard library where wrap-around can be reached
  (`strconv.ParseUint`, `time.Unix`);
* hit counts are natural numbers: a count is bounded by the number of lines
  read, which never reaches `2^63`;
* a Go `map` is an association list with distinct keys, read through lookups;
* a `bufio.Scanner` read to its end is the list of the lines it delivers and
  the error it ends with; `newScanner` gives both for the lines of a file,
  with the token limit of the default buffer;
* functions of the Go standard library (`strconv`, `strings`, `time`, `sort`,
  `fmt`) are modelled after their implementation in the Go distribution.
-/

namespace NyansaExercise

/-- A Go string, as the list of its characters. -/
abbrev GoString := List Char

deriving instance DecidableEq for Except

/-! ## `strconv` -/

/-- The two errors of `strconv`: `ErrSyntax` and `ErrRange`. -/
inductive NumError where
  | errSyntax
  | errRange
  deriving DecidableEq, Repr

/-- The function `lower` of `strconv`: `c | ('x' - 'X')` on a byte, which maps an
upper-case ASCII letter to its lower-case letter. Only its use in the digit
test of `ParseUint` matters: the result is a letter exactly when `c` is one. -/
def lowerIsLetter (c : Char) : Bool :=
  (97 ≤ c.toNat && c.toNat ≤ 122) || (65 ≤ c.toNat && c.toNat ≤ 90)

/-- The constant `cutoff` of `ParseUint` for base 10: `maxUint64/10 + 1`. -/
def parseUintCutoff : Nat := 18446744073709551615 / 10 + 1

/-- The constant `maxVal` of `ParseUint` for bit size 64: `1<<64 - 1`. -/
def parseUintMaxVal : Nat := 2 ^ 64 - 1

/-- The digit loop of `strconv.ParseUint(s, 10, 64)`, with `n` the `uint64`
accumulator. A character that is no digit of base 10 is a syntax error; an
accumulator that cannot take another digit is a range error. -/
def parseUintLoop : GoString → Nat → Except NumError Nat
  | [], n => .ok n
  | c :: cs, n =>
    if 48 ≤ c.toNat ∧ c.toNat ≤ 57 then
      let d := c.toNat - 48
      if n ≥ parseUintCutoff then .error .errRange
      else
        let n10 := (n * 10) % 2 ^ 64
        let n1 := (n10 + d) % 2 ^ 64
        if n1 < n10 ∨ n1 > parseUintMaxVal then .error .errRange
        else parseUintLoop cs n1
    else if lowerIsLetter c then
      -- d = lower(c) - 'a' + 10 >= base
      .error .errSyntax
    else .error .errSyntax

/-- The function `strconv.ParseUint(s, 10, 64)`. -/
def strconvParseUint (s : GoString) : Except NumError Nat :=
  match s with
  | [] => .error .errSyntax
  | _ => parseUintLoop s 0

/-- The function `strconv.ParseInt(s, 10, 64)`: an optional sign, then
`ParseUint`, then the range check against `cutoff = 1 << 63`. Only the error
or the value is kept (the clamped value Go returns next to a range error is
never read by the program). -/
def strconvParseInt (s : GoString) : Except NumError Int :=
  match s with
  | [] => .error .errSyntax
  | c :: cs =>
    let neg := c = '-'
    let body := if c = '+' ∨ c = '-' then cs else s
    match strconvParseUint body with
    | .error e => .error e
    | .ok un =>
      if ¬ neg ∧ un ≥ 2 ^ 63 then .error .errRange
      else if neg ∧ un > 2 ^ 63 then .error .errRange
      else if neg then .ok (-(un : Int)) else .ok (un : Int)

/-- The fast path of `strconv.Atoi`: the digits after the optional sign,
accumulated without range check; a character outside `0..9` is a syntax
error. -/
def atoiFastLoop : GoString → Nat → Except NumError Nat
  | [], n => .ok n
  | c :: cs, n =>
    if 48 ≤ c.toNat ∧ c.toNat ≤ 57 then atoiFastLoop cs (n * 10 + (c.toNat - 48))
    else .error .errSyntax

/-- The function `strconv.Atoi` on a 64-bit platform: texts of 1 to 18
characters take the fast path, all others go through `ParseInt(s, 10, 0)`. -/
def strconvAtoi (s : GoString) : Except NumError Int :=
  if 0 < s.length ∧ s.length < 19 then
    match s with
    | [] => .error .errSyntax
    | c :: cs =>
      let body := if c = '-' ∨ c = '+' then cs else s
      if body.length < 1 then .error .errSyntax
      else
        match atoiFastLoop body 0 with
        | .error e => .error e
        | .ok n => if c = '-' then .ok (-(n : Int)) else .ok (n : Int)
  else strconvParseInt s

/-- The decimal digits of `n`, most significant first, written before `acc`;
`fuel` bounds the number of digits produced. -/
def digitsAux : Nat → Nat → GoString → GoString
  | 0, _, acc => acc
  | fuel + 1, n, acc =>
    let acc1 := Char.ofNat (48 + n % 10) :: acc
    if n / 10 = 0 then acc1 else digitsAux fuel (n / 10) acc1

/-- The decimal text of a natural number (`"0"` for zero). -/
def natDigits (n : Nat) : GoString := digitsAux (n + 1) n []

/-- The function `strconv.Itoa`: the decimal text of an integer, with a
leading `-` for a negative one. -/
def strconvItoa (i : Int) : GoString :=
  if i < 0 then '-' :: natDigits i.natAbs else natDigits i.natAbs

/-! ## `time` -/

/-- The constant `unixToInternal + internalToAbsolute` of package `time`: the
seconds from the absolute epoch (1 January of year -292277022399) to the Unix
epoch. -/
def unixToAbsolute : Int := 9223372028715321600

/-- The constant `absoluteZeroYear` of package `time`. -/
def absoluteZeroYear : Int := -292277022399

/-- The absolute seconds of `time.Unix(sec, 0).UTC()`: `abs()` computes
`uint64(sec + (unixToInternal + internalToAbsolute))` in 64-bit arithmetic. -/
def timeAbs (sec : Int) : Nat := ((sec + unixToAbsolute) % 2 ^ 64).toNat

/-- The function `isLeap` of package `time`; `%` of Go truncates. -/
def isLeap (year : Int) : Bool :=
  year.tmod 4 = 0 && (year.tmod 100 ≠ 0 || year.tmod 400 = 0)

/-- The table `daysBefore` of package `time`: `daysBefore[m]` is the number of
days of a non-leap year before month `m+1`. -/
def daysBefore (m : Nat) : Nat :=
  match m with
  | 0 => 0
  | 1 => 31
  | 2 => 31 + 28
  | 3 => 31 + 28 + 31
  | 4 => 31 + 28 + 31 + 30
  | 5 => 31 + 28 + 31 + 30 + 31
  | 6 => 31 + 28 + 31 + 30 + 31 + 30
  | 7 => 31 + 28 + 31 + 30 + 31 + 30 + 31
  | 8 => 31 + 28 + 31 + 30 + 31 + 30 + 31 + 31
  | 9 => 31 + 28 + 31 + 30 + 31 + 30 + 31 + 31 + 30
  | 10 => 31 + 28 + 31 + 30 + 31 + 30 + 31 + 31 + 30 + 31
  | 11 => 31 + 28 + 31 + 30 + 31 + 30 + 31 + 31 + 30 + 31 + 30
  | _ => 31 + 28 + 31 + 30 + 31 + 30 + 31 + 31 + 30 + 31 + 30 + 31

/-- The year and the day within the year of an absolute time: the first half
of `absDate` (400-year, 100-year, 4-year cycles, then single years). -/
def absYearDay (abs : Nat) : Int × Nat :=
  let d := abs / 86400
  let n := d / 146097
  let y := 400 * n
  let d := d - 146097 * n
  let n := d / 36524
  let n := n - n / 4
  let y := y + 100 * n
  let d := d - 36524 * n
  let n := d / 1461
  let y := y + 4 * n
  let d := d - 1461 * n
  let n := d / 365
  let n := n - n / 4
  let y := y + n
  let d := d - 365 * n
  ((y : Int) + absoluteZeroYear, d)

/-- The month (1..12) and the day of the month of day `yday` of a year: the
second half of `absDate`. -/
def monthDay (leap : Bool) (yday : Nat) : Nat × Nat :=
  if leap ∧ yday = 31 + 29 - 1 then (2, 29)
  else
    let day := if leap ∧ yday > 31 + 29 - 1 then yday - 1 else yday
    let month := day / 31
    let e := daysBefore (month + 1)
    if day ≥ e then (month + 1 + 1, day - e + 1)
    else (month + 1, day - daysBefore month + 1)

/-- The function `absDate(abs, true)` of package `time`: year, month, day. -/
def absDate (abs : Nat) : Int × Nat × Nat :=
  let yd := absYearDay abs
  let md := monthDay (isLeap yd.1) yd.2
  (yd.1, md.1, md.2)

/-- The function `appendInt` of package `time`, on an empty buffer: the sign,
then the decimal digits padded with zeros to `width`. -/
def appendInt (x : Int) (width : Nat) : GoString :=
  let ds := natDigits x.natAbs
  let padded := List.replicate (width - ds.length) '0' ++ ds
  if x < 0 then '-' :: padded else padded

/-- The text `t.Format("20060102")` of a date: the year in at least four
digits, the month and the day in two. -/
def format20060102 (ymd : Int × Nat × Nat) : GoString :=
  appendInt ymd.1 4 ++ appendInt ymd.2.1 2 ++ appendInt ymd.2.2 2

/-! ## `main.go` -/

/-- The function `getDateKey`: the key `YYYYMMDD` of the UTC day of a Unix
timestamp given as text. -/
def getDateKey (epochTs : GoString) : Except NumError Int :=
  match strconvParseInt epochTs with
  | .error err => .error err
  | .ok epochTsInt =>
    let t := absDate (timeAbs epochTsInt)
    match strconvAtoi (format20060102 t) with
    | .error err => .error err
    | .ok key => .ok key

/-- The function `formatDateFromKey`: the text `MM/DD/YYYY GMT` of a key whose
decimal text has length 8, and the error `Invalid date key: ...` otherwise. -/
def formatDateFromKey (dateKey : Int) : Except GoString GoString :=
  let dateKeyStr := strconvItoa dateKey
  if dateKeyStr.length ≠ 8 then .error ("Invalid date key: ".toList ++ dateKeyStr)
  else
    .ok ((dateKeyStr.drop 4).take 2 ++ '/' :: dateKeyStr.drop 6 ++ '/' :: dateKeyStr.take 4
      ++ " GMT".toList)

/-- The function `strings.Split(s, sep)` for a separator of one character:
the pieces of `s` between the occurrences of `sep`, one more than there are
occurrences. -/
def stringsSplit (s : GoString) (sep : Char) : List GoString :=
  match s with
  | [] => [[]]
  | c :: cs =>
    if c = sep then [] :: stringsSplit cs sep
    else
      match stringsSplit cs sep with
      | [] => [[c]]
      | p :: ps => (c :: p) :: ps

/-- A Go map `m[k]` read: the value stored under `k`, if any. -/
def mapGet {κ ν : Type} [DecidableEq κ] : List (κ × ν) → κ → Option ν
  | [], _ => none
  | (k1, v1) :: m, k => if k1 = k then some v1 else mapGet m k

/-- A Go map write `m[k] = v`: replaces the value under `k`, or adds the
key. -/
def mapSet {κ ν : Type} [DecidableEq κ] : List (κ × ν) → κ → ν → List (κ × ν)
  | [], k, v => [(k, v)]
  | (k1, v1) :: m, k, v => if k1 = k then (k, v) :: m else (k1, v1) :: mapSet m k v

/-- The per-day bucket `map[string]int`: hit count of every URL. -/
abbrev UrlCounts := List (GoString × Nat)

/-- The table `map[int]map[string]int`: the bucket of every day. -/
abbrev HitTable := List (Int × UrlCounts)

/-- The count stored under day `d` and URL `url`, if the entry exists. -/
def hitCount (t : HitTable) (d : Int) (url : GoString) : Option Nat :=
  match mapGet t d with
  | none => none
  | some uh => mapGet uh url

/-- The state of the loop of `parseData`: `dateUrlHits` and `dates`. -/
structure ParseState where
  dateUrlHits : HitTable
  dates : List Int
  deriving DecidableEq, Repr

/-- One iteration of the loop of `parseData` on the line `text`. -/
def parseLine (st : ParseState) (text : GoString) : ParseState :=
  match stringsSplit text '|' with
  | [ts, url] =>
    match getDateKey ts with
    | .error _ => st
    | .ok d =>
      match mapGet st.dateUrlHits d with
      | some uh =>
        match mapGet uh url with
        | some n => { st with dateUrlHits := mapSet st.dateUrlHits d (mapSet uh url (n + 1)) }
        | none => { st with dateUrlHits := mapSet st.dateUrlHits d (mapSet uh url 1) }
      | none =>
        { dateUrlHits := mapSet st.dateUrlHits d (mapSet [] url 1),
          dates := st.dates ++ [d] }
  | _ => st

/-- A `bufio.Scanner` read to its end: the lines `Scan` delivers, and the
error `Err()` reports afterwards, if any. -/
structure Scanner where
  lines : List GoString
  err : Option GoString
  deriving DecidableEq, Repr

/-- The function `sort.Ints`: the ascending arrangement of a list of
integers (insertion, as `insertionSortOrdered`; every sorting algorithm
returns the same list). -/
def sortInts (xs : List Int) : List Int := xs.insertionSort (fun a b => a ≤ b)

/-- The loop of `parseData` over all lines, from the empty table. -/
def parseLoop (lines : List GoString) : ParseState :=
  lines.foldl parseLine { dateUrlHits := [], dates := [] }

/-- The function `parseData`: the table and the sorted list of days, or the
read error of the scanner. -/
def parseData (scanner : Scanner) : Except GoString (HitTable × List Int) :=
  let st := parseLoop scanner.lines
  match scanner.err with
  | some err => .error err
  | none => .ok (st.dateUrlHits, sortInts st.dates)

/-- The type `UrlHit`. -/
structure UrlHit where
  Url : GoString
  Hits : Nat
  deriving DecidableEq, Repr

/-- The method `urlHitList.Less` on two elements: more hits come first. -/
def urlHitLess (a b : UrlHit) : Bool := decide (a.Hits > b.Hits)

/-- The inner loop of `insertionSort` of package `sort`: the new element moves
towards the front while it is `less` than its predecessor. The sorted prefix
is given last element first. -/
def insertBack {α : Type} (less : α → α → Bool) (x : α) : List α → List α
  | [] => [x]
  | y :: ys => if less x y then y :: insertBack less x ys else x :: y :: ys

/-- The function `sort.Sort`, as the insertion sort that package `sort` runs
on slices of fewer than 12 elements. -/
def sortSort {α : Type} (less : α → α → Bool) (data : List α) : List α :=
  (data.foldl (fun sorted x => insertBack less x sorted) []).reverse

/-- The contract of `sort.Sort`, which every algorithm behind it (insertion
sort on short slices, pattern-defeating quicksort on long ones) meets: the
result is a rearrangement of the data in which no element is `less` than an
element before it. Equal elements may come in any order. -/
def SortContract {α : Type} (less : α → α → Bool) (data out : List α) : Prop :=
  out.Perm data ∧ out.Pairwise (fun a b => less b a = false)

/-- The element `UrlHit{url, hits}` that `main` appends for an entry of a
bucket. -/
def toUrlHit (p : GoString × Nat) : UrlHit := { Url := p.1, Hits := p.2 }

/-- The list `urlHits` that `main` builds from a bucket enumerated in the
order `enumerated`, after `sort.Sort`. -/
def sortedUrlHits (enumerated : UrlCounts) : List UrlHit :=
  sortSort urlHitLess (enumerated.map toUrlHit)

/-- The line `fmt.Printf("%s %d\n", uh.Url, uh.Hits)` without its newline. -/
def urlHitLine (uh : UrlHit) : GoString := uh.Url ++ ' ' :: strconvItoa uh.Hits

/-- What `main` writes to standard output, and the error `log.Fatal` ends the
run with, if any. -/
structure Output where
  printed : List GoString
  fatal : Option GoString
  deriving DecidableEq, Repr

/-- The loop of `main` over the days. The order in which `range` enumerates a
bucket is not fixed by Go; `enum` gives it. -/
def renderDates (enum : UrlCounts → UrlCounts) (parsed : HitTable) :
    List Int → List GoString → Output
  | [], printed => { printed := printed, fatal := none }
  | date :: rest, printed =>
    match formatDateFromKey date with
    | .error err => { printed := printed, fatal := some err }
    | .ok formatedDate =>
      let bucket := (mapGet parsed date).getD []
      renderDates enum parsed rest
        (printed ++ formatedDate :: (sortedUrlHits (enum bucket)).map urlHitLine)

/-- The function `main` after the file is opened: parse, then render. -/
def mainReport (enum : UrlCounts → UrlCounts) (scanner : Scanner) : Output :=
  match parseData scanner with
  | .error err => { printed := [], fatal := some err }
  | .ok (parsed, dates) => renderDates enum parsed dates []

/-! ## Notions used in the statements -/

/-- The keys of a map, in the order of the association list. -/
def mapKeys {κ ν : Type} (m : List (κ × ν)) : List κ := m.map Prod.fst

/-- A decimal digit character, `'0'..'9'`. -/
def isDigit (c : Char) : Bool := decide (48 ≤ c.toNat ∧ c.toNat ≤ 57)

/-- The value of a text of decimal digits, read most significant first,
continuing from the value `n` of the digits already read. -/
def decimalFrom (n : Nat) (ds : GoString) : Nat :=
  ds.foldl (fun a c => a * 10 + (c.toNat - 48)) n

/-- The value of a text of decimal digits. -/
def decimalValue (ds : GoString) : Nat := decimalFrom 0 ds

/-- The integer a text denotes when it is an optional sign followed by one or
more decimal digits whose value lies in `-2^63 .. 2^63-1`; `none` for every
other text. -/
def int64TextValue (s : GoString) : Option Int :=
  let neg := s.head? = some '-'
  let ds := if s.head? = some '-' ∨ s.head? = some '+' then s.tail else s
  if ds ≠ [] ∧ ds.all isDigit = true then
    let v : Int := if neg then -(decimalValue ds : Int) else (decimalValue ds : Int)
    if -(2 ^ 63 : Int) ≤ v ∧ v ≤ 2 ^ 63 - 1 then some v else none
  else none

/-- The integer whose decimal text is the year followed by the month and the
day in two digits each, with the sign of the year: what `strconv.Atoi` reads
from `t.Format("20060102")`. -/
def dateKeyOf (ymd : Int × Nat × Nat) : Int :=
  if ymd.1 < 0 then -((ymd.1.natAbs * 10000 + ymd.2.1 * 100 + ymd.2.2 : Nat) : Int)
  else ((ymd.1.natAbs * 10000 + ymd.2.1 * 100 + ymd.2.2 : Nat) : Int)

/-- The leap-year rule of the proleptic Gregorian calendar: every fourth year,
except the centuries not divisible by 400. -/
def gregorianLeap (Y : Nat) : Bool := Y % 4 = 0 && (Y % 100 ≠ 0 || Y % 400 = 0)

/-- The number of days of month `M` (1..12) of a leap or common year. -/
def daysInMonth (leap : Bool) (M : Nat) : Nat :=
  match M with
  | 1 => 31
  | 2 => if leap then 29 else 28
  | 3 => 31
  | 4 => 30
  | 5 => 31
  | 6 => 30
  | 7 => 31
  | 8 => 31
  | 9 => 30
  | 10 => 31
  | 11 => 30
  | 12 => 31
  | _ => 0

/-- The number of days of the year that lie before month `M`. -/
def daysBeforeMonth (leap : Bool) : Nat → Nat
  | 0 => 0
  | M + 1 => daysBeforeMonth leap M + daysInMonth leap M

/-- The number of days from 1 January of year 0 to 1 January of year `Y`. -/
def daysBeforeYear : Nat → Nat
  | 0 => 0
  | Y + 1 => daysBeforeYear Y + (if gregorianLeap Y then 366 else 365)

/-- A date of the proleptic Gregorian calendar: month 1..12, day 1..length of
the month. -/
def validDate (Y M D : Nat) : Prop :=
  1 ≤ M ∧ M ≤ 12 ∧ 1 ≤ D ∧ D ≤ daysInMonth (gregorianLeap Y) M

/-- The number of the day `Y-M-D`, counted from 1970-01-01 (day 0). -/
def civilDayNumber (Y M D : Nat) : Int :=
  ((daysBeforeYear Y + daysBeforeMonth (gregorianLeap Y) M + (D - 1) : Nat) : Int)
    - (daysBeforeYear 1970 : Nat)

/-- The invariant of the loop of `parseData`: `dates` lists the keys of the
table, each once. -/
def ParseInv (st : ParseState) : Prop :=
  st.dates = mapKeys st.dateUrlHits ∧ (mapKeys st.dateUrlHits).Nodup

/-- The two-digit decimal text of a number below 100, zero-padded. -/
def twoDigits (n : Nat) : GoString := [Char.ofNat (48 + n / 10 % 10), Char.ofNat (48 + n % 10)]

/-- The four-digit decimal text of a number below 10000, zero-padded. -/
def fourDigits (n : Nat) : GoString :=
  [Char.ofNat (48 + n / 1000 % 10), Char.ofNat (48 + n / 100 % 10),
    Char.ofNat (48 + n / 10 % 10), Char.ofNat (48 + n % 10)]

/-- What a line contributes: the day key and the URL when the line splits on
`|` into exactly two parts and `getDateKey` accepts the first, nothing
otherwise. -/
def lineEvent (text : GoString) : Option (Int × GoString) :=
  match stringsSplit text '|' with
  | [ts, url] =>
    match getDateKey ts with
    | .error _ => none
    | .ok d => some (d, url)
  | _ => none

/-- A line that contains exactly one `|` and whose text before the `|`
`getDateKey` accepts. -/
def validLine (text : GoString) : Bool :=
  decide (text.count '|' = 1) &&
    (match getDateKey (text.takeWhile (fun c => decide (c ≠ '|'))) with
      | .ok _ => true
      | .error _ => false)

/-- The sum of the counts of a bucket. -/
def bucketTotal (b : UrlCounts) : Nat := (b.map Prod.snd).sum

/-- The sum of all counts over all buckets of a table. -/
def totalHits (t : HitTable) : Nat := (t.map (fun p => bucketTotal p.2)).sum

/-- The invariant of the table built by `parseData`: every bucket is
non-empty, lists each URL once, and holds counts of at least 1. -/
def TableInv (t : HitTable) : Prop :=
  ∀ p ∈ t, p.2 ≠ [] ∧ (mapKeys p.2).Nodup ∧ ∀ q ∈ p.2, 1 ≤ q.2

/-- The lines `main` prints under the header of a day: one per element of
the sorted list `urlHits` of the day. -/
def dayLines (enum : UrlCounts → UrlCounts) (parsed : HitTable) (date : Int) : List GoString :=
  (sortedUrlHits (enum ((mapGet parsed date).getD []))).map urlHitLine

/-- The header line of a day: the text `formatDateFromKey` returns. -/
def dayHeader (date : Int) : GoString :=
  match formatDateFromKey date with
  | .ok formatedDate => formatedDate
  | .error _ => []

/-- The six-line example input of the specification. -/
def exampleInput : Scanner :=
  Scanner.mk ["1700000000|/a".toList, "1700000000|/b".toList, "1700000001|/a".toList,
    "1700086400|/c".toList, "not-a-valid-line".toList, "1700086400|/c".toList] none

/-- The constant `bufio.MaxScanTokenSize`: the size of the largest buffer a
scanner made by `bufio.NewScanner` allocates. -/
def maxScanTokenSize : Nat := 64 * 1024

/-- The number of bytes of a text, in the UTF-8 encoding Go strings use. -/
def byteLen (s : GoString) : Nat := (s.map Char.utf8Size).sum

/-- The function `dropCR` of package `bufio`: a line without its trailing
carriage return. -/
def dropCR (s : GoString) : GoString :=
  if s.getLast? = some '\r' then s.dropLast else s

/-- The scanner `bufio.NewScanner(file)` of `main`, read to its end, over a
file whose lines (the texts between the newlines) are `fileLines`. `Scan`
delivers the lines in order; a line of `MaxScanTokenSize` bytes or more does
not fit the buffer, so `Scan` stops there and `Err()` is `ErrTooLong`. -/
def newScanner (fileLines : List GoString) : Scanner :=
  Scanner.mk
    ((fileLines.takeWhile (fun l => decide (byteLen l < maxScanTokenSize))).map dropCR)
    (if fileLines.all (fun l => decide (byteLen l < maxScanTokenSize)) = true then none
      else some "bufio.Scanner: token too long".toList)

/-- A date key that `formatDateFromKey` decodes without error. -/
def dateKeyDecodes (date : Int) : Bool :=
  match formatDateFromKey date with
  | .ok _ => true
  | .error _ => false

/-! ## Theorems -/

/-! ## Lemmas on `strings.Split` and on maps -/

theorem stringsSplit_ne_nil (s : GoString) (sep : Char) : stringsSplit s sep ≠ [] := by
  induction s with
  | nil => simp [stringsSplit]
  | cons c cs ih =>
    unfold stringsSplit
    split
    · simp
    · split <;> simp

theorem stringsSplit_length (s : GoString) (sep : Char) :
    (stringsSplit s sep).length = s.count sep + 1 := by
  induction s with
  | nil => simp [stringsSplit]
  | cons c cs ih =>
    unfold stringsSplit
    by_cases h : c = sep
    · subst h
      simp [ih]
    · have hc : (c == sep) = false := by simpa using h
      rw [if_neg h, List.count_cons, hc]
      cases hs : stringsSplit cs sep with
      | nil => exact absurd hs (stringsSplit_ne_nil cs sep)
      | cons p ps =>
        rw [hs] at ih
        simpa using ih

theorem stringsSplit_head (s : GoString) (sep : Char) :
    (stringsSplit s sep).head? = some (s.takeWhile (fun c => decide (c ≠ sep))) := by
  induction s with
  | nil => simp [stringsSplit]
  | cons c cs ih =>
    unfold stringsSplit
    by_cases h : c = sep
    · subst h
      simp
    · rw [if_neg h]
      cases hs : stringsSplit cs sep with
      | nil => exact absurd hs (stringsSplit_ne_nil cs sep)
      | cons p ps =>
        rw [hs] at ih
        simp at ih
        simp [List.takeWhile_cons, h, ih]

theorem stringsSplit_of_not_mem (s : GoString) (sep : Char) (h : sep ∉ s) :
    stringsSplit s sep = [s] := by
  induction s with
  | nil => simp [stringsSplit]
  | cons c cs ih =>
    have hc : ¬ c = sep := fun e => h (by simp [e])
    have hcs : sep ∉ cs := fun e => h (by simp [e])
    unfold stringsSplit
    rw [if_neg hc, ih hcs]

theorem stringsSplit_two (a b : GoString) (sep : Char) (ha : sep ∉ a) (hb : sep ∉ b) :
    stringsSplit (a ++ sep :: b) sep = [a, b] := by
  induction a with
  | nil =>
    simp only [List.nil_append]
    unfold stringsSplit
    rw [if_pos rfl, stringsSplit_of_not_mem b sep hb]
  | cons c cs ih =>
    have hc : ¬ c = sep := fun e => ha (by simp [e])
    have hcs : sep ∉ cs := fun e => ha (by simp [e])
    simp only [List.cons_append]
    unfold stringsSplit
    rw [if_neg hc, ih hcs]

theorem mapGet_mapSet_same {κ ν : Type} [DecidableEq κ] (m : List (κ × ν)) (k : κ) (v : ν) :
    mapGet (mapSet m k v) k = some v := by
  induction m with
  | nil => simp [mapSet, mapGet]
  | cons p m ih =>
    obtain ⟨k1, v1⟩ := p
    by_cases h : k1 = k
    · simp [mapSet, mapGet, h]
    · simp [mapSet, mapGet, h, ih]

theorem mapGet_mapSet_ne {κ ν : Type} [DecidableEq κ] (m : List (κ × ν)) (k k2 : κ) (v : ν)
    (hne : k2 ≠ k) : mapGet (mapSet m k v) k2 = mapGet m k2 := by
  induction m with
  | nil =>
    have : ¬ k = k2 := fun e => hne e.symm
    simp [mapSet, mapGet, this]
  | cons p m ih =>
    obtain ⟨k1, v1⟩ := p
    by_cases h : k1 = k
    · subst h
      have : ¬ k1 = k2 := fun e => hne e.symm
      simp [mapSet, mapGet, this]
    · by_cases h2 : k1 = k2
      · subst h2
        simp [mapSet, mapGet, h]
      · simp [mapSet, mapGet, h, h2, ih]

theorem mapGet_eq_none_iff {κ ν : Type} [DecidableEq κ] (m : List (κ × ν)) (k : κ) :
    mapGet m k = none ↔ k ∉ mapKeys m := by
  induction m with
  | nil => simp [mapGet, mapKeys]
  | cons p m ih =>
    obtain ⟨k1, v1⟩ := p
    by_cases h : k1 = k
    · simp [mapGet, mapKeys, h]
    · have h2 : ¬ k = k1 := fun e => h e.symm
      simp only [mapGet, if_neg h, ih]
      simp [mapKeys, h2]

theorem mapKeys_mapSet_of_mem {κ ν : Type} [DecidableEq κ] (m : List (κ × ν)) (k : κ) (v : ν)
    (h : k ∈ mapKeys m) : mapKeys (mapSet m k v) = mapKeys m := by
  induction m with
  | nil => simp [mapKeys] at h
  | cons p m ih =>
    obtain ⟨k1, v1⟩ := p
    by_cases h1 : k1 = k
    · simp [mapSet, mapKeys, h1]
    · have hm : k ∈ mapKeys m := by
        have h2 : ¬ k = k1 := fun e => h1 e.symm
        simpa [mapKeys, h2] using h
      have := ih hm
      simp only [mapKeys] at this
      simp [mapSet, mapKeys, h1, this]

theorem mapKeys_mapSet_of_not_mem {κ ν : Type} [DecidableEq κ] (m : List (κ × ν)) (k : κ)
    (v : ν) (h : k ∉ mapKeys m) : mapKeys (mapSet m k v) = mapKeys m ++ [k] := by
  induction m with
  | nil => simp [mapSet, mapKeys]
  | cons p m ih =>
    obtain ⟨k1, v1⟩ := p
    have h1 : ¬ k1 = k := fun e => h (by simp [mapKeys, e])
    have hm : k ∉ mapKeys m := fun e => h (by simp [mapKeys] at e ⊢; exact Or.inr e)
    have := ih hm
    simp only [mapKeys] at this
    simp [mapSet, mapKeys, h1, this]

/-! ## Decimal texts -/

theorem decimalFrom_nil (n : Nat) : decimalFrom n [] = n := rfl

theorem decimalFrom_cons (n : Nat) (c : Char) (cs : GoString) :
    decimalFrom n (c :: cs) = decimalFrom (n * 10 + (c.toNat - 48)) cs := rfl

theorem decimalFrom_append (n : Nat) (a b : GoString) :
    decimalFrom n (a ++ b) = decimalFrom (decimalFrom n a) b := by
  simp [decimalFrom, List.foldl_append]

theorem le_decimalFrom (n : Nat) (ds : GoString) : n ≤ decimalFrom n ds := by
  induction ds generalizing n with
  | nil => simp [decimalFrom_nil]
  | cons c cs ih =>
    rw [decimalFrom_cons]
    have := ih (n * 10 + (c.toNat - 48))
    omega

theorem decimalFrom_mono (n m : Nat) (ds : GoString) (h : n ≤ m) :
    decimalFrom n ds ≤ decimalFrom m ds := by
  induction ds generalizing n m with
  | nil => simpa [decimalFrom_nil] using h
  | cons c cs ih =>
    rw [decimalFrom_cons, decimalFrom_cons]
    exact ih _ _ (by omega)

theorem decimalFrom_eq (n : Nat) (ds : GoString) :
    decimalFrom n ds = n * 10 ^ ds.length + decimalFrom 0 ds := by
  induction ds generalizing n with
  | nil => simp [decimalFrom_nil]
  | cons c cs ih =>
    rw [decimalFrom_cons, decimalFrom_cons, ih, ih (0 * 10 + (c.toNat - 48))]
    simp only [List.length_cons, pow_succ]
    ring

/-- The digit loop of `ParseUint` returns the value of the digits when every
character is a digit and the value fits 64 bits. -/
theorem parseUintLoop_ok (cs : GoString) (n : Nat) (hd : cs.all isDigit = true)
    (hv : decimalFrom n cs < 2 ^ 64) : parseUintLoop cs n = .ok (decimalFrom n cs) := by
  induction cs generalizing n with
  | nil => simp [parseUintLoop, decimalFrom_nil]
  | cons c cs ih =>
    simp only [List.all_cons, Bool.and_eq_true] at hd
    obtain ⟨hc, hcs⟩ := hd
    have hc2 : 48 ≤ c.toNat ∧ c.toNat ≤ 57 := by simpa [isDigit] using hc
    rw [decimalFrom_cons] at hv ⊢
    have hle := le_decimalFrom (n * 10 + (c.toNat - 48)) cs
    have h1 : n * 10 + (c.toNat - 48) < 2 ^ 64 := lt_of_le_of_lt hle hv
    have h10 : n * 10 < 2 ^ 64 := by omega
    unfold parseUintLoop
    rw [if_pos hc2]
    have hcut : ¬ n ≥ parseUintCutoff := by
      simp only [parseUintCutoff]
      norm_num at h1 ⊢
      omega
    simp only
    rw [if_neg hcut, Nat.mod_eq_of_lt h10, Nat.mod_eq_of_lt h1]
    have hno : ¬ (n * 10 + (c.toNat - 48) < n * 10 ∨ n * 10 + (c.toNat - 48) > parseUintMaxVal) := by
      simp only [parseUintMaxVal]
      norm_num at h1 ⊢
      omega
    rw [if_neg hno]
    exact ih _ hcs hv

/-- When the digit loop of `ParseUint` returns a value, every character is a
digit and the value is that of the digits, below `2^64`. -/
theorem parseUintLoop_inv (cs : GoString) (n v : Nat) (hn : n < 2 ^ 64)
    (h : parseUintLoop cs n = .ok v) :
    cs.all isDigit = true ∧ v = decimalFrom n cs ∧ v < 2 ^ 64 := by
  induction cs generalizing n with
  | nil =>
    simp only [parseUintLoop, Except.ok.injEq] at h
    subst h
    exact ⟨by simp, by simp [decimalFrom_nil], hn⟩
  | cons c cs ih =>
    unfold parseUintLoop at h
    by_cases hc2 : 48 ≤ c.toNat ∧ c.toNat ≤ 57
    · rw [if_pos hc2] at h
      simp only at h
      by_cases hcut : n ≥ parseUintCutoff
      · rw [if_pos hcut] at h
        cases h
      · rw [if_neg hcut] at h
        have h10 : n * 10 < 2 ^ 64 := by
          simp only [parseUintCutoff] at hcut
          norm_num at hcut ⊢
          omega
        rw [Nat.mod_eq_of_lt h10] at h
        by_cases hov : (n * 10 + (c.toNat - 48)) % 2 ^ 64 < n * 10 ∨
            (n * 10 + (c.toNat - 48)) % 2 ^ 64 > parseUintMaxVal
        · rw [if_pos hov] at h
          cases h
        · rw [if_neg hov] at h
          have h1 : n * 10 + (c.toNat - 48) < 2 ^ 64 := by
            by_contra hge
            apply hov
            left
            norm_num at hge h10 ⊢
            omega
          rw [Nat.mod_eq_of_lt h1] at h
          obtain ⟨a, b, c3⟩ := ih _ h1 h
          refine ⟨?_, ?_, c3⟩
          · simp only [List.all_cons, Bool.and_eq_true]
            exact ⟨by simpa [isDigit] using hc2, a⟩
          · rw [decimalFrom_cons]
            exact b
    · rw [if_neg hc2] at h
      split at h <;> cases h
theorem strconvParseUint_eq_ok_iff (ds : GoString) (v : Nat) :
    strconvParseUint ds = .ok v ↔
      ds ≠ [] ∧ ds.all isDigit = true ∧ decimalValue ds = v ∧ v < 2 ^ 64 := by
  cases ds with
  | nil => simp [strconvParseUint]
  | cons c cs =>
    simp only [strconvParseUint, ne_eq, reduceCtorEq, not_false_eq_true, true_and]
    constructor
    · intro h
      obtain ⟨a, b, c3⟩ := parseUintLoop_inv (c :: cs) 0 v (by norm_num) h
      exact ⟨a, b.symm, c3⟩
    · rintro ⟨a, b, c3⟩
      have := parseUintLoop_ok (c :: cs) 0 a (by rw [← decimalValue, b]; exact c3)
      rw [this, ← decimalValue, b]

/-- The function `strconv.ParseInt(s, 10, 64)` returns `t` exactly when `s` is
an optional sign followed by decimal digits of value `t` within 64 bits. -/
theorem strconvParseInt_eq_ok_iff (s : GoString) (t : Int) :
    strconvParseInt s = .ok t ↔ int64TextValue s = some t := by
  cases s with
  | nil => simp [strconvParseInt, int64TextValue]
  | cons c cs =>
    simp only [strconvParseInt, int64TextValue, List.head?_cons, Option.some.injEq,
      List.tail_cons]
    have key : ∀ (body : GoString) (neg : Prop) [Decidable neg],
        (match strconvParseUint body with
          | .error e => (Except.error e : Except NumError Int)
          | .ok un =>
            if ¬ neg ∧ un ≥ 2 ^ 63 then .error .errRange
            else if neg ∧ un > 2 ^ 63 then .error .errRange
            else if neg then .ok (-(un : Int)) else .ok (un : Int)) = .ok t ↔
        (if body ≠ [] ∧ body.all isDigit = true then
          (if -(2 ^ 63 : Int) ≤ (if neg then -(decimalValue body : Int) else (decimalValue body : Int)) ∧
              (if neg then -(decimalValue body : Int) else (decimalValue body : Int)) ≤ 2 ^ 63 - 1
            then some (if neg then -(decimalValue body : Int) else (decimalValue body : Int))
            else none)
          else none) = some t := by
      intro body neg _
      cases hp : strconvParseUint body with
      | error e =>
        simp only [reduceCtorEq, false_iff]
        by_cases hb : body ≠ [] ∧ body.all isDigit = true
        · rw [if_pos hb]
          have hbig : ¬ decimalValue body < 2 ^ 64 := by
            intro hlt
            have := (strconvParseUint_eq_ok_iff body (decimalValue body)).2 ⟨hb.1, hb.2, rfl, hlt⟩
            rw [hp] at this
            cases this
          by_cases hneg : neg
          · simp only [hneg, if_true]
            rw [if_neg]
            · simp
            · norm_num at hbig ⊢
              omega
          · simp only [hneg, if_false]
            rw [if_neg]
            · simp
            · norm_num at hbig ⊢
              omega
        · rw [if_neg hb]
          simp
      | ok un =>
        obtain ⟨h1, h2, h3, h4⟩ := (strconvParseUint_eq_ok_iff body un).1 hp
        rw [if_pos ⟨h1, h2⟩, h3]
        by_cases hneg : neg
        · simp only [hneg, not_true_eq_false, false_and, if_false, true_and, if_true]
          by_cases hr : un > 2 ^ 63
          · rw [if_pos hr, if_neg]
            · simp
            · norm_num at hr ⊢
              omega
          · rw [if_neg hr, if_pos]
            · simp
            · norm_num at hr ⊢
              omega
        · simp only [hneg, not_false_eq_true, true_and, false_and, if_false]
          by_cases hr : un ≥ 2 ^ 63
          · rw [if_pos hr, if_neg]
            · simp
            · norm_num at hr ⊢
              omega
          · rw [if_neg hr, if_pos]
            · simp
            · norm_num at hr ⊢
              omega
    have := key (if c = '+' ∨ c = '-' then cs else c :: cs) (c = '-')
    have e1 : (c = '-' ∨ c = '+') = (c = '+' ∨ c = '-') := propext or_comm
    simp only [e1]
    convert this using 2
/-! ## Decimal digits of a number -/

theorem toNat_ofNat_digit (k : Nat) (hk : k < 10) : (Char.ofNat (48 + k)).toNat = 48 + k := by
  interval_cases k <;> rfl

theorem isDigit_ofNat_digit (k : Nat) (hk : k < 10) : isDigit (Char.ofNat (48 + k)) = true := by
  interval_cases k <;> rfl

theorem digitsAux_append (fuel n : Nat) (acc : GoString) :
    digitsAux fuel n acc = digitsAux fuel n [] ++ acc := by
  induction fuel generalizing n acc with
  | zero => simp [digitsAux]
  | succ f ih =>
    unfold digitsAux
    by_cases h : n / 10 = 0
    · simp [h]
    · simp only [h, if_false]
      rw [ih (n / 10) (Char.ofNat (48 + n % 10) :: acc), ih (n / 10) [Char.ofNat (48 + n % 10)]]
      simp

theorem digitsAux_succ (fuel n : Nat) :
    digitsAux (fuel + 1) n [] =
      if n / 10 = 0 then [Char.ofNat (48 + n % 10)]
      else digitsAux fuel (n / 10) [] ++ [Char.ofNat (48 + n % 10)] := by
  conv_lhs => unfold digitsAux
  by_cases h : n / 10 = 0
  · simp [h]
  · simp only [h, if_false]
    rw [digitsAux_append]

theorem digitsAux_all_isDigit (fuel n : Nat) : (digitsAux fuel n []).all isDigit = true := by
  induction fuel generalizing n with
  | zero => simp [digitsAux]
  | succ f ih =>
    rw [digitsAux_succ]
    have hd := isDigit_ofNat_digit (n % 10) (Nat.mod_lt _ (by norm_num))
    by_cases h : n / 10 = 0
    · simp [h, hd]
    · simp only [h, if_false, List.all_append, ih, List.all_cons, hd, List.all_nil, Bool.and_self]

theorem digitsAux_value (fuel n : Nat) (h : n < 10 ^ fuel) :
    decimalFrom 0 (digitsAux fuel n []) = n := by
  induction fuel generalizing n with
  | zero =>
    simp at h
    subst h
    simp [digitsAux, decimalFrom_nil]
  | succ f ih =>
    rw [digitsAux_succ]
    have hk := toNat_ofNat_digit (n % 10) (Nat.mod_lt _ (by norm_num))
    by_cases h0 : n / 10 = 0
    · simp only [h0, if_true, decimalFrom_cons, decimalFrom_nil, hk]
      omega
    · simp only [h0, if_false]
      have hlt : n / 10 < 10 ^ f := by
        rw [pow_succ] at h
        omega
      rw [decimalFrom_append, ih (n / 10) hlt, decimalFrom_cons, decimalFrom_nil, hk]
      omega

theorem digitsAux_length_pos (fuel n : Nat) : 0 < (digitsAux (fuel + 1) n []).length := by
  rw [digitsAux_succ]
  by_cases h0 : n / 10 = 0 <;> simp [h0]

theorem digitsAux_length_le (fuel n k : Nat) (h : n < 10 ^ (k + 1)) :
    (digitsAux fuel n []).length ≤ k + 1 := by
  induction fuel generalizing n k with
  | zero => simp [digitsAux]
  | succ f ih =>
    rw [digitsAux_succ]
    by_cases h0 : n / 10 = 0
    · simp [h0]
    · simp only [h0, if_false, List.length_append, List.length_singleton]
      cases k with
      | zero =>
        exfalso
        apply h0
        simp at h
        omega
      | succ k =>
        have hlt : n / 10 < 10 ^ (k + 1) := by
          rw [pow_succ] at h
          omega
        have := ih (n / 10) k hlt
        omega

theorem lt_ten_pow_succ (n : Nat) : n < 10 ^ (n + 1) := by
  have h1 : n < 10 ^ n := Nat.lt_pow_self (by norm_num) n
  have h2 : 10 ^ n ≤ 10 ^ (n + 1) := Nat.pow_le_pow_right (by norm_num) (Nat.le_succ n)
  omega

theorem natDigits_all_isDigit (n : Nat) : (natDigits n).all isDigit = true :=
  digitsAux_all_isDigit _ _

theorem natDigits_value (n : Nat) : decimalFrom 0 (natDigits n) = n :=
  digitsAux_value _ _ (lt_ten_pow_succ n)

theorem natDigits_length_pos (n : Nat) : 0 < (natDigits n).length :=
  digitsAux_length_pos _ _

theorem natDigits_length_le (n k : Nat) (h : n < 10 ^ (k + 1)) :
    (natDigits n).length ≤ k + 1 :=
  digitsAux_length_le _ _ _ h

theorem atoiFastLoop_ok (ds : GoString) (a : Nat) (h : ds.all isDigit = true) :
    atoiFastLoop ds a = .ok (decimalFrom a ds) := by
  induction ds generalizing a with
  | nil => simp [atoiFastLoop, decimalFrom_nil]
  | cons c cs ih =>
    simp only [List.all_cons, Bool.and_eq_true] at h
    have hc : 48 ≤ c.toNat ∧ c.toNat ≤ 57 := by simpa [isDigit] using h.1
    unfold atoiFastLoop
    rw [if_pos hc, ih _ h.2, decimalFrom_cons]

theorem decimalFrom_replicate_zero (a k : Nat) :
    decimalFrom a (List.replicate k '0') = a * 10 ^ k := by
  induction k generalizing a with
  | zero => simp [decimalFrom_nil]
  | succ k ih =>
    rw [List.replicate_succ, decimalFrom_cons, ih]
    have : ('0' : Char).toNat = 48 := rfl
    rw [this, pow_succ]
    ring

/-- The zero-padded decimal text of a natural number, as `appendInt` writes
it, read back as a number. -/
theorem appendInt_nonneg (x w : Nat) :
    appendInt (x : Int) w = List.replicate (w - (natDigits x).length) '0' ++ natDigits x := by
  simp [appendInt]

theorem appendInt_neg (x : Int) (w : Nat) (h : x < 0) :
    appendInt x w = '-' :: appendInt (x.natAbs : Int) w := by
  rw [appendInt_nonneg]
  simp [appendInt, h]

theorem appendInt_nat_all_isDigit (x w : Nat) : (appendInt (x : Int) w).all isDigit = true := by
  rw [appendInt_nonneg, List.all_append, natDigits_all_isDigit]
  simp only [Bool.and_true, List.all_eq_true]
  intro c hc
  rw [List.eq_of_mem_replicate hc]
  rfl

theorem appendInt_nat_value (a x w : Nat) :
    decimalFrom a (appendInt (x : Int) w) = a * 10 ^ (appendInt (x : Int) w).length + x := by
  rw [decimalFrom_eq, appendInt_nonneg, decimalFrom_append, decimalFrom_replicate_zero,
    decimalFrom_eq, natDigits_value]
  simp

theorem appendInt_nat_length (x w : Nat) :
    (appendInt (x : Int) w).length = max w (natDigits x).length := by
  rw [appendInt_nonneg]
  simp only [List.length_append, List.length_replicate]
  omega

theorem appendInt_two_length (x : Nat) (h : x < 100) : (appendInt (x : Int) 2).length = 2 := by
  rw [appendInt_nat_length]
  have := natDigits_length_le x 1 (by simpa using h)
  omega
/-! ## The date of an absolute time -/

/-- The year arithmetic of `absDate`: the day count `d` from the absolute
epoch splits into the days before year `y` (counted from the absolute zero
year, which is 1 modulo 400) and a day of that year. -/
theorem year_split (d : Nat) :
    let n1 := d / 146097
    let d1 := d - 146097 * n1
    let n2 := d1 / 36524
    let n2' := n2 - n2 / 4
    let d2 := d1 - 36524 * n2'
    let n3 := d2 / 1461
    let d3 := d2 - 1461 * n3
    let n4 := d3 / 365
    let n4' := n4 - n4 / 4
    let d4 := d3 - 365 * n4'
    let y := 400 * n1 + 100 * n2' + 4 * n3 + n4'
    d = 365 * y + y / 4 - y / 100 + y / 400 + d4 ∧
    (d4 < 365 ∨ (d4 = 365 ∧ (y + 1) % 4 = 0 ∧ ((y + 1) % 100 ≠ 0 ∨ (y + 1) % 400 = 0))) := by
  intro n1 d1 n2 n2' d2 n3 d3 n4 n4' d4 y
  have h1 : d1 < 146097 := by omega
  have h2 : n2' ≤ 3 := by omega
  have h3 : d2 ≤ 36524 := by omega
  have h3' : d2 = 36524 → n2' = 3 := by omega
  have h4 : n3 ≤ 24 := by omega
  have h5 : d3 ≤ 1460 := by omega
  have h5' : n3 = 24 → d3 = 1460 → n2' = 3 := by omega
  have h6 : n4' ≤ 3 := by omega
  have h7 : d4 ≤ 365 := by omega
  have h7' : d4 = 365 → n4' = 3 := by omega
  have hy4 : y / 4 = 100 * n1 + 25 * n2' + n3 := by omega
  have hy100 : y / 100 = 4 * n1 + n2' := by omega
  have hy400 : y / 400 = n1 := by omega
  have hd : d = 146097 * n1 + 36524 * n2' + 1461 * n3 + 365 * n4' + d4 := by omega
  refine ⟨by omega, ?_⟩
  by_cases h : d4 < 365
  · left; exact h
  · right
    have e : d4 = 365 := by omega
    have e4 := h7' e
    have : d3 = 1460 := by omega
    refine ⟨e, by omega, ?_⟩
    by_cases hn : n3 = 24
    · right
      have := h5' hn this
      omega
    · left
      omega

theorem isLeap_iff (year : Int) :
    isLeap year = true ↔ year % 4 = 0 ∧ (year % 100 ≠ 0 ∨ year % 400 = 0) := by
  have e4 : year.tmod 4 = 0 ↔ year % 4 = 0 := by
    rw [← Int.dvd_iff_tmod_eq_zero, Int.dvd_iff_emod_eq_zero]
  have e100 : year.tmod 100 = 0 ↔ year % 100 = 0 := by
    rw [← Int.dvd_iff_tmod_eq_zero, Int.dvd_iff_emod_eq_zero]
  have e400 : year.tmod 400 = 0 ↔ year % 400 = 0 := by
    rw [← Int.dvd_iff_tmod_eq_zero, Int.dvd_iff_emod_eq_zero]
  simp [isLeap, e4, e100, e400]

/-- What `absYearDay` returns: the year `y + absoluteZeroYear` and the day
`yd` of that year, with the days before the year and `yd` adding up to the
day count, and `yd = 365` only in a leap year. -/
theorem absYearDay_spec (abs : Nat) :
    ∃ y yd : Nat, absYearDay abs = ((y : Int) + absoluteZeroYear, yd) ∧
      abs / 86400 = 365 * y + y / 4 - y / 100 + y / 400 + yd ∧
      (yd < 365 ∨ (yd = 365 ∧ isLeap ((y : Int) + absoluteZeroYear) = true)) := by
  obtain ⟨h1, h2⟩ := year_split (abs / 86400)
  refine ⟨_, _, rfl, h1, ?_⟩
  rcases h2 with h | ⟨h, h4, h100⟩
  · exact Or.inl h
  · refine Or.inr ⟨h, ?_⟩
    rw [isLeap_iff]
    simp only [absoluteZeroYear]
    omega

theorem absYearDay_bounds (abs : Nat) (h : abs < 2 ^ 64) :
    -292277022399 ≤ (absYearDay abs).1 ∧ (absYearDay abs).1 < 292277030000 := by
  simp only [absYearDay, absoluteZeroYear]
  norm_num at h
  refine ⟨?_, ?_⟩ <;> omega

set_option maxRecDepth 100000 in
theorem monthDay_bounds (leap : Bool) (yday : Nat) (h : yday < 365 ∨ (yday = 365 ∧ leap = true)) :
    1 ≤ (monthDay leap yday).1 ∧ (monthDay leap yday).1 ≤ 12 ∧
      1 ≤ (monthDay leap yday).2 ∧ (monthDay leap yday).2 ≤ 31 := by
  have : ∀ l : Bool, ∀ y : Fin 366, (y.val < 365 ∨ l = true) →
      1 ≤ (monthDay l y.val).1 ∧ (monthDay l y.val).1 ≤ 12 ∧
      1 ≤ (monthDay l y.val).2 ∧ (monthDay l y.val).2 ≤ 31 := by decide
  exact this leap ⟨yday, by omega⟩ (by rcases h with h | h; exact Or.inl h; exact Or.inr h.2)

theorem absDate_bounds (abs : Nat) (h : abs < 2 ^ 64) :
    -292277022399 ≤ (absDate abs).1 ∧ (absDate abs).1 < 292277030000 ∧
      1 ≤ (absDate abs).2.1 ∧ (absDate abs).2.1 ≤ 12 ∧
      1 ≤ (absDate abs).2.2 ∧ (absDate abs).2.2 ≤ 31 := by
  obtain ⟨h2, h3⟩ := absYearDay_bounds abs h
  obtain ⟨y, yd, e, _, hyd⟩ := absYearDay_spec abs
  have hm := monthDay_bounds (isLeap (absYearDay abs).1) (absYearDay abs).2 (by rw [e]; exact hyd)
  obtain ⟨m1, m2, m3, m4⟩ := hm
  exact ⟨h2, h3, m1, m2, m3, m4⟩

theorem timeAbs_lt (sec : Int) : timeAbs sec < 2 ^ 64 := by
  unfold timeAbs
  have h1 : 0 ≤ (sec + unixToAbsolute) % 2 ^ 64 := Int.emod_nonneg _ (by norm_num)
  have h2 : (sec + unixToAbsolute) % 2 ^ 64 < 2 ^ 64 := Int.emod_lt_of_pos _ (by norm_num)
  omega

theorem digit_ne_sign (c : Char) (h : isDigit c = true) : ¬ (c = '-' ∨ c = '+') := by
  rintro (rfl | rfl) <;> simp [isDigit] at h

/-- The fast path of `strconv.Atoi` on a non-empty digit text of fewer than 19
characters. -/
theorem strconvAtoi_digits (ds : GoString) (h : ds.all isDigit = true) (hpos : 0 < ds.length)
    (hlen : ds.length < 19) : strconvAtoi ds = .ok (decimalFrom 0 ds : Nat) := by
  cases ds with
  | nil => simp at hpos
  | cons c cs =>
    have hc : isDigit c = true := by
      simp only [List.all_cons, Bool.and_eq_true] at h
      exact h.1
    have hs := digit_ne_sign c hc
    have hm : ¬ c = '-' := fun e => hs (Or.inl e)
    unfold strconvAtoi
    rw [if_pos ⟨hpos, hlen⟩]
    simp only [if_neg hs]
    have hl : ¬ (c :: cs).length < 1 := by simp
    rw [if_neg hl, atoiFastLoop_ok _ _ h]
    simp only [if_neg hm]

/-- The fast path of `strconv.Atoi` on `-` followed by a non-empty digit
text. -/
theorem strconvAtoi_neg_digits (ds : GoString) (h : ds.all isDigit = true) (hpos : 0 < ds.length)
    (hlen : ds.length < 18) :
    strconvAtoi ('-' :: ds) = .ok (-((decimalFrom 0 ds : Nat) : Int)) := by
  unfold strconvAtoi
  have hl : 0 < ('-' :: ds).length ∧ ('-' :: ds).length < 19 := by
    simp only [List.length_cons]
    omega
  rw [if_pos hl]
  simp only [true_or, if_true]
  have hl2 : ¬ ds.length < 1 := by omega
  rw [if_neg hl2, atoiFastLoop_ok _ _ h]

theorem format_nat_all_isDigit (y m d : Nat) :
    (appendInt (y : Int) 4 ++ appendInt (m : Int) 2 ++ appendInt (d : Int) 2).all isDigit = true := by
  simp only [List.all_append, appendInt_nat_all_isDigit, Bool.and_self]

theorem format_nat_value (y m d : Nat) (hm : m < 100) (hd : d < 100) :
    decimalFrom 0 (appendInt (y : Int) 4 ++ appendInt (m : Int) 2 ++ appendInt (d : Int) 2) =
      y * 10000 + m * 100 + d := by
  rw [decimalFrom_append, decimalFrom_append, appendInt_nat_value, appendInt_nat_value,
    appendInt_nat_value, appendInt_two_length m hm, appendInt_two_length d hd]
  ring

theorem format_nat_length (y m d : Nat) (hy : y < 10 ^ 12) (hm : m < 100) (hd : d < 100) :
    4 + 2 + 2 ≤ (appendInt (y : Int) 4 ++ appendInt (m : Int) 2 ++ appendInt (d : Int) 2).length ∧
      (appendInt (y : Int) 4 ++ appendInt (m : Int) 2 ++ appendInt (d : Int) 2).length ≤ 16 := by
  simp only [List.length_append, appendInt_two_length m hm, appendInt_two_length d hd,
    appendInt_nat_length]
  have := natDigits_length_le y 11 hy
  omega

/-- The function `strconv.Atoi` never fails on the text `t.Format("20060102")`
of a date of package `time`, and reads `dateKeyOf` from it. -/
theorem strconvAtoi_format (y : Int) (m d : Nat) (hy : y.natAbs < 10 ^ 12) (hm : m < 100)
    (hd : d < 100) : strconvAtoi (format20060102 (y, m, d)) = .ok (dateKeyOf (y, m, d)) := by
  have hall := format_nat_all_isDigit y.natAbs m d
  have hval := format_nat_value y.natAbs m d hm hd
  have hlen := format_nat_length y.natAbs m d hy hm hd
  by_cases hneg : y < 0
  · simp only [format20060102, dateKeyOf, hneg, if_true]
    rw [appendInt_neg y 4 hneg]
    simp only [List.cons_append]
    rw [strconvAtoi_neg_digits _ hall (by omega) (by omega), hval]
  · simp only [format20060102, dateKeyOf, hneg, if_false]
    have hy2 : y = (y.natAbs : Int) := by omega
    rw [hy2]
    simp only [Int.natAbs_ofNat]
    rw [strconvAtoi_digits _ hall (by omega) (by omega), hval]

/-- The function `getDateKey` fails only when `strconv.ParseInt` does: on a
timestamp `t` it returns the key of the date of `time.Unix(t, 0).UTC()`. -/
theorem getDateKey_of_parse (s : GoString) (t : Int) (h : strconvParseInt s = .ok t) :
    getDateKey s = .ok (dateKeyOf (absDate (timeAbs t))) := by
  obtain ⟨b1, b2, b3, b4, b5, b6⟩ := absDate_bounds (timeAbs t) (timeAbs_lt t)
  have hy : (absDate (timeAbs t)).1.natAbs < 10 ^ 12 := by
    norm_num
    omega
  have := strconvAtoi_format (absDate (timeAbs t)).1 (absDate (timeAbs t)).2.1
    (absDate (timeAbs t)).2.2 hy (by omega) (by omega)
  simp only [getDateKey, h]
  rw [show absDate (timeAbs t) = ((absDate (timeAbs t)).1, (absDate (timeAbs t)).2.1,
    (absDate (timeAbs t)).2.2) from rfl] at *
  simp only [this]

theorem getDateKey_error_of_parse (s : GoString) (e : NumError)
    (h : strconvParseInt s = .error e) : getDateKey s = .error e := by
  simp only [getDateKey, h]
/-! ## The Gregorian calendar -/

theorem daysBeforeYear_eq (Y : Nat) :
    daysBeforeYear Y = 365 * Y + (Y + 3) / 4 - (Y + 99) / 100 + (Y + 399) / 400 := by
  induction Y with
  | zero => rfl
  | succ Y ih =>
    unfold daysBeforeYear
    rw [ih]
    by_cases h : gregorianLeap Y = true
    · rw [if_pos h]
      simp only [gregorianLeap, Bool.and_eq_true, Bool.or_eq_true, decide_eq_true_eq,
        ne_eq, Bool.not_eq_true', decide_eq_false_iff_not] at h
      omega
    · rw [if_neg h]
      simp only [gregorianLeap, Bool.and_eq_true, Bool.or_eq_true, decide_eq_true_eq,
        ne_eq, Bool.not_eq_true', decide_eq_false_iff_not] at h
      omega

theorem isLeap_ofNat (Y : Nat) : isLeap (Y : Int) = gregorianLeap Y := by
  rw [Bool.eq_iff_iff, isLeap_iff]
  simp only [gregorianLeap, Bool.and_eq_true, Bool.or_eq_true, decide_eq_true_eq,
    ne_eq, Bool.not_eq_true', decide_eq_false_iff_not]
  omega

set_option maxRecDepth 100000 in
/-- The month arithmetic of `absDate` inverts the count of the days before a
date within its year. -/
theorem monthDay_daysBeforeMonth (leap : Bool) (M D : Nat) (hM1 : 1 ≤ M) (hM : M ≤ 12)
    (hD1 : 1 ≤ D) (hD : D ≤ daysInMonth leap M) :
    monthDay leap (daysBeforeMonth leap M + (D - 1)) = (M, D) ∧
      daysBeforeMonth leap M + (D - 1) < (if leap then 366 else 365) := by
  have : ∀ l : Bool, ∀ m : Fin 13, ∀ d : Fin 32, 1 ≤ m.val → 1 ≤ d.val →
      d.val ≤ daysInMonth l m.val →
      monthDay l (daysBeforeMonth l m.val + (d.val - 1)) = (m.val, d.val) ∧
        daysBeforeMonth l m.val + (d.val - 1) < (if l then 366 else 365) := by decide
  have hD31 : D ≤ 31 := by
    have : ∀ l : Bool, ∀ m : Fin 13, daysInMonth l m.val ≤ 31 := by decide
    exact le_trans hD (this leap ⟨M, by omega⟩)
  exact this leap ⟨M, by omega⟩ ⟨D, by omega⟩ hM1 hD1 hD

theorem leap_count_step (a : Nat) :
    365 * (a + 1) + (a + 1) / 4 - (a + 1) / 100 + (a + 1) / 400 =
      365 * a + a / 4 - a / 100 + a / 400 + 365 +
        (if (a + 1) % 4 = 0 ∧ ((a + 1) % 100 ≠ 0 ∨ (a + 1) % 400 = 0) then 1 else 0) := by
  have h4 : (a + 1) / 4 = a / 4 + (if (a + 1) % 4 = 0 then 1 else 0) := by
    split <;> omega
  have h100 : (a + 1) / 100 = a / 100 + (if (a + 1) % 100 = 0 then 1 else 0) := by
    split <;> omega
  have h400 : (a + 1) / 400 = a / 400 + (if (a + 1) % 400 = 0 then 1 else 0) := by
    split <;> omega
  have i1 : (a + 1) % 100 = 0 → (a + 1) % 4 = 0 := by omega
  have i2 : (a + 1) % 400 = 0 → (a + 1) % 100 = 0 := by omega
  have l1 : a / 100 ≤ a / 4 := by omega
  have l2 : (a + 1) / 100 ≤ (a + 1) / 4 := by omega
  rw [h4, h100, h400] at *
  generalize a / 4 = q4 at *
  generalize a / 100 = q100 at *
  generalize a / 400 = q400 at *
  by_cases c4 : (a + 1) % 4 = 0 <;> by_cases c100 : (a + 1) % 100 = 0 <;>
    by_cases c400 : (a + 1) % 400 = 0 <;> simp only [c4, c100, c400, if_true, if_false,
      true_and, false_and, not_true_eq_false, not_false_eq_true, or_true, or_false, true_or,
      false_or, ne_eq, forall_true_left] at * <;> omega

theorem leap_count_mono (a k : Nat) :
    365 * a + a / 4 - a / 100 + a / 400 + 365 * k ≤
      365 * (a + k) + (a + k) / 4 - (a + k) / 100 + (a + k) / 400 := by
  induction k with
  | zero => simp
  | succ k ih =>
    have e : a + (k + 1) = (a + k) + 1 := by omega
    rw [e, leap_count_step (a + k)]
    generalize 365 * (a + k) + (a + k) / 4 - (a + k) / 100 + (a + k) / 400 = B at ih ⊢
    omega

/-- The year arithmetic of `absDate` is determined by its specification: two
splittings of the same day count into a year and a day of that year agree. -/
theorem year_split_unique (y1 y2 d1 d2 : Nat)
    (h : 365 * y1 + y1 / 4 - y1 / 100 + y1 / 400 + d1 = 365 * y2 + y2 / 4 - y2 / 100 + y2 / 400 + d2)
    (h1 : d1 < 365 ∨ (d1 = 365 ∧ (y1 + 1) % 4 = 0 ∧ ((y1 + 1) % 100 ≠ 0 ∨ (y1 + 1) % 400 = 0)))
    (h2 : d2 < 365 ∨ (d2 = 365 ∧ (y2 + 1) % 4 = 0 ∧ ((y2 + 1) % 100 ≠ 0 ∨ (y2 + 1) % 400 = 0))) :
    y1 = y2 ∧ d1 = d2 := by
  have key : ∀ ya yb da db : Nat, ya < yb →
      365 * ya + ya / 4 - ya / 100 + ya / 400 + da = 365 * yb + yb / 4 - yb / 100 + yb / 400 + db →
      (da < 365 ∨ (da = 365 ∧ (ya + 1) % 4 = 0 ∧ ((ya + 1) % 100 ≠ 0 ∨ (ya + 1) % 400 = 0))) →
      False := by
    intro ya yb da db hlt he hda
    obtain ⟨k, rfl⟩ : ∃ k, yb = (ya + 1) + k := ⟨yb - (ya + 1), by omega⟩
    have m := leap_count_mono (ya + 1) k
    have s := leap_count_step ya
    generalize 365 * (ya + 1 + k) + (ya + 1 + k) / 4 - (ya + 1 + k) / 100 + (ya + 1 + k) / 400 = B
      at he m
    generalize 365 * (ya + 1) + (ya + 1) / 4 - (ya + 1) / 100 + (ya + 1) / 400 = A1 at m s
    generalize 365 * ya + ya / 4 - ya / 100 + ya / 400 = A at he s
    split at s <;> omega
  rcases Nat.lt_trichotomy y1 y2 with hlt | heq | hgt
  · exact (key y1 y2 d1 d2 hlt h h1).elim
  · subst heq
    exact ⟨rfl, by omega⟩
  · exact (key y2 y1 d2 d1 hgt h.symm h2).elim
theorem daysBeforeYear_1970 : daysBeforeYear 1970 = 719528 := by
  rw [daysBeforeYear_eq]

theorem timeAbs_eq (t : Int) (h1 : -9223372028715321600 ≤ t) (h2 : t < 2 ^ 63) :
    (timeAbs t : Int) = t + 9223372028715321600 := by
  unfold timeAbs unixToAbsolute
  norm_num at h2
  have : (t + 9223372028715321600) % 2 ^ 64 = t + 9223372028715321600 := by
    apply Int.emod_eq_of_lt <;> norm_num <;> omega
  rw [this]
  omega

/-- The date `absDate` computes for a timestamp is the Gregorian date of its
day: when day `⌊t / 86400⌋` counted from 1970-01-01 is `Y-M-D`, then
`time.Unix(t, 0).UTC()` has year `Y`, month `M` and day `D`. -/
theorem absDate_civil (t : Int) (Y M D : Nat) (ht : t < 2 ^ 63) (hv : validDate Y M D)
    (hday : t / 86400 = civilDayNumber Y M D) :
    absDate (timeAbs t) = ((Y : Int), M, D) := by
  obtain ⟨hM1, hM, hD1, hD⟩ := hv
  obtain ⟨hmd, hlt⟩ := monthDay_daysBeforeMonth (gregorianLeap Y) M D hM1 hM hD1 hD
  unfold civilDayNumber at hday
  rw [daysBeforeYear_1970, Nat.add_assoc] at hday
  have hby := daysBeforeYear_eq Y
  generalize daysBeforeMonth (gregorianLeap Y) M + (D - 1) = d2 at *
  generalize daysBeforeYear Y = by0 at *
  have hlow : -9223372028715321600 ≤ t := by omega
  have habs := timeAbs_eq t hlow ht
  obtain ⟨y, yd, e, hsplit, hyd⟩ := absYearDay_spec (timeAbs t)
  have hdiv : timeAbs t / 86400 = by0 + d2 + 106751990353566 := by omega
  rw [hdiv] at hsplit
  have hyd2 : yd < 365 ∨ (yd = 365 ∧ (y + 1) % 4 = 0 ∧ ((y + 1) % 100 ≠ 0 ∨ (y + 1) % 400 = 0)) := by
    rcases hyd with h | ⟨h, hl⟩
    · exact Or.inl h
    · rw [isLeap_iff] at hl
      simp only [absoluteZeroYear] at hl
      exact Or.inr ⟨h, by omega⟩
  have hd2 : d2 < 365 ∨ (d2 = 365 ∧ (Y + 292277022399 + 1) % 4 = 0 ∧
      ((Y + 292277022399 + 1) % 100 ≠ 0 ∨ (Y + 292277022399 + 1) % 400 = 0)) := by
    by_cases hl : gregorianLeap Y = true
    · rw [if_pos hl] at hlt
      simp only [gregorianLeap, Bool.and_eq_true, Bool.or_eq_true, decide_eq_true_eq,
        ne_eq, Bool.not_eq_true', decide_eq_false_iff_not] at hl
      omega
    · rw [if_neg hl] at hlt
      exact Or.inl hlt
  have hf : 365 * (Y + 292277022399) + (Y + 292277022399) / 4 - (Y + 292277022399) / 100 +
      (Y + 292277022399) / 400 + d2 = by0 + d2 + 106751990353566 := by
    have q4 : (Y + 292277022399) / 4 = (Y + 3) / 4 + 73069255599 := by omega
    have q100 : (Y + 292277022399) / 100 = (Y + 99) / 100 + 2922770223 := by omega
    have q400 : (Y + 292277022399) / 400 = (Y + 399) / 400 + 730692555 := by omega
    have l1 : (Y + 99) / 100 ≤ (Y + 3) / 4 := by omega
    rw [q4, q100, q400, hby]
    generalize (Y + 3) / 4 = a4 at *
    generalize (Y + 99) / 100 = a100 at *
    generalize (Y + 399) / 400 = a400 at *
    omega
  obtain ⟨ey, ed⟩ := year_split_unique y (Y + 292277022399) yd d2 (by rw [← hsplit, hf]) hyd2 hd2
  subst ey ed
  have eyear : ((Y + 292277022399 : Nat) : Int) + absoluteZeroYear = (Y : Int) := by
    simp only [absoluteZeroYear]
    omega
  rw [eyear] at e
  simp only [absDate, e, isLeap_ofNat, hmd]

theorem strconvParseInt_range (s : GoString) (t : Int) (h : strconvParseInt s = .ok t) :
    -(2 ^ 63 : Int) ≤ t ∧ t ≤ 2 ^ 63 - 1 := by
  rw [strconvParseInt_eq_ok_iff] at h
  simp only [int64TextValue, Option.ite_none_right_eq_some, Option.some.injEq] at h
  obtain ⟨_, h2, h3⟩ := h
  rw [← h3]
  exact h2

/-- The key `getDateKey` returns for a timestamp on the Gregorian day `Y-M-D` is
`Y*10000 + M*100 + D`. -/
theorem getDateKey_civil_aux (s : GoString) (t : Int) (Y M D : Nat)
    (hs : strconvParseInt s = .ok t) (hv : validDate Y M D)
    (hday : t / 86400 = civilDayNumber Y M D) :
    getDateKey s = .ok ((Y * 10000 + M * 100 + D : Nat) : Int) := by
  have ht : t < 2 ^ 63 := by
    have := (strconvParseInt_range s t hs).2
    omega
  rw [getDateKey_of_parse s t hs, absDate_civil t Y M D ht hv hday]
  simp [dateKeyOf]

/-! ## The loop of `parseData` -/

theorem parseLoop_append (L : List GoString) (x : GoString) :
    parseLoop (L ++ [x]) = parseLine (parseLoop L) x := by
  simp [parseLoop, List.foldl_append]

theorem parseLine_inv (st : ParseState) (text : GoString) (h : ParseInv st) :
    ParseInv (parseLine st text) := by
  obtain ⟨h1, h2⟩ := h
  unfold parseLine
  split
  · split
    · exact ⟨h1, h2⟩
    · rename_i d _
      split
      · rename_i uh hget
        have hmem : d ∈ mapKeys st.dateUrlHits := by
          by_contra hn
          rw [← mapGet_eq_none_iff] at hn
          rw [hn] at hget
          cases hget
        split <;>
        · simp only [ParseInv]
          rw [mapKeys_mapSet_of_mem _ _ _ hmem]
          exact ⟨h1, h2⟩
      · rename_i hget
        have hnm : d ∉ mapKeys st.dateUrlHits := (mapGet_eq_none_iff _ _).1 hget
        simp only [ParseInv]
        rw [mapKeys_mapSet_of_not_mem _ _ _ hnm, h1]
        refine ⟨rfl, ?_⟩
        rw [List.nodup_append]
        refine ⟨h2, by simp, ?_⟩
        intro a ha hb
        simp only [List.mem_singleton] at hb
        subst hb
        exact hnm ha
  · exact ⟨h1, h2⟩

theorem foldl_parseLine_inv (L : List GoString) (st : ParseState) (h : ParseInv st) :
    ParseInv (L.foldl parseLine st) := by
  induction L generalizing st with
  | nil => exact h
  | cons x xs ih => exact ih _ (parseLine_inv st x h)

theorem parseLoop_inv (L : List GoString) : ParseInv (parseLoop L) :=
  foldl_parseLine_inv L _ ⟨rfl, by simp [mapKeys]⟩

theorem sortInts_strict (xs : List Int) (h : xs.Nodup) : (sortInts xs).Sorted (· < ·) := by
  have hs : (sortInts xs).Sorted (· ≤ ·) := List.sorted_insertionSort (· ≤ ·) xs
  have hp : (sortInts xs).Perm xs := List.perm_insertionSort (· ≤ ·) xs
  exact hs.lt_of_le (hp.nodup_iff.2 h)

/-! ## `sort.Sort` by descending hits -/

theorem insertBack_perm {α : Type} (less : α → α → Bool) (x : α) (l : List α) :
    (insertBack less x l).Perm (x :: l) := by
  induction l with
  | nil => simp [insertBack]
  | cons y ys ih =>
    unfold insertBack
    split
    · exact (List.Perm.cons y ih).trans (List.Perm.swap x y ys)
    · exact List.Perm.refl _

theorem insertBack_sorted (x : UrlHit) (l : List UrlHit)
    (h : l.Pairwise (fun a b => a.Hits ≤ b.Hits)) :
    (insertBack urlHitLess x l).Pairwise (fun a b => a.Hits ≤ b.Hits) := by
  induction l with
  | nil => simp [insertBack]
  | cons y ys ih =>
    rw [List.pairwise_cons] at h
    unfold insertBack
    by_cases hl : urlHitLess x y = true
    · rw [if_pos hl]
      rw [List.pairwise_cons]
      refine ⟨?_, ih h.2⟩
      intro a ha
      have := (insertBack_perm urlHitLess x ys).mem_iff.1 ha
      rcases List.mem_cons.1 this with rfl | hm
      · simp only [urlHitLess, decide_eq_true_eq] at hl
        omega
      · exact h.1 a hm
    · rw [if_neg hl]
      simp only [urlHitLess, decide_eq_true_eq] at hl
      rw [List.pairwise_cons, List.pairwise_cons]
      refine ⟨?_, h⟩
      intro a ha
      rcases List.mem_cons.1 ha with rfl | hm
      · omega
      · have := h.1 a hm
        omega

theorem foldl_insertBack (data acc : List UrlHit)
    (h : acc.Pairwise (fun a b => a.Hits ≤ b.Hits)) :
    (data.foldl (fun sorted x => insertBack urlHitLess x sorted) acc).Pairwise
        (fun a b => a.Hits ≤ b.Hits) ∧
      (data.foldl (fun sorted x => insertBack urlHitLess x sorted) acc).Perm
        (data.reverse ++ acc) := by
  induction data generalizing acc with
  | nil => exact ⟨h, by simp⟩
  | cons x xs ih =>
    obtain ⟨a, b⟩ := ih (insertBack urlHitLess x acc) (insertBack_sorted x acc h)
    refine ⟨a, b.trans ?_⟩
    simp only [List.reverse_cons, List.append_assoc, List.singleton_append]
    exact List.Perm.append_left _ (insertBack_perm urlHitLess x acc)

/-- The insertion sort of package `sort` meets the contract of `sort.Sort` for
the order `urlHitList.Less`. -/
theorem sortSort_contract (data : List UrlHit) :
    SortContract urlHitLess data (sortSort urlHitLess data) := by
  obtain ⟨a, b⟩ := foldl_insertBack data [] List.Pairwise.nil
  constructor
  · unfold sortSort
    refine (List.reverse_perm _).trans (b.trans ?_)
    simp only [List.append_nil]
    exact List.reverse_perm _
  · unfold sortSort
    rw [List.pairwise_reverse]
    refine a.imp ?_
    intro p q hpq
    simp only [urlHitLess, decide_eq_false_iff_not]
    omega

/-! ## The decimal text of an eight-digit key -/

theorem natDigits_eight (n : Nat) (h1 : 10000000 ≤ n) (h2 : n < 100000000) :
    natDigits n = [Char.ofNat (48 + n / 10000000 % 10), Char.ofNat (48 + n / 1000000 % 10),
      Char.ofNat (48 + n / 100000 % 10), Char.ofNat (48 + n / 10000 % 10),
      Char.ofNat (48 + n / 1000 % 10), Char.ofNat (48 + n / 100 % 10),
      Char.ofNat (48 + n / 10 % 10), Char.ofNat (48 + n % 10)] := by
  obtain ⟨f, hf⟩ : ∃ f, n + 1 = f + 8 := ⟨n - 7, by omega⟩
  unfold natDigits
  rw [hf]
  have e1 : ¬ n / 10 = 0 := by omega
  have e2 : ¬ n / 10 / 10 = 0 := by omega
  have e3 : ¬ n / 10 / 10 / 10 = 0 := by omega
  have e4 : ¬ n / 10 / 10 / 10 / 10 = 0 := by omega
  have e5 : ¬ n / 10 / 10 / 10 / 10 / 10 = 0 := by omega
  have e6 : ¬ n / 10 / 10 / 10 / 10 / 10 / 10 = 0 := by omega
  have e7 : ¬ n / 10 / 10 / 10 / 10 / 10 / 10 / 10 = 0 := by omega
  have e8 : n / 10 / 10 / 10 / 10 / 10 / 10 / 10 / 10 = 0 := by omega
  rw [digitsAux_succ, if_neg e1, digitsAux_succ, if_neg e2, digitsAux_succ, if_neg e3,
    digitsAux_succ, if_neg e4, digitsAux_succ, if_neg e5, digitsAux_succ, if_neg e6,
    digitsAux_succ, if_neg e7, digitsAux_succ, if_pos e8]
  simp only [List.cons_append, List.nil_append, Nat.div_div_eq_div_mul]

/-- On a key of eight digits `formatDateFromKey` returns digits 5-6, `/`,
digits 7-8, `/`, digits 1-4 and ` GMT`. -/
theorem formatDateFromKey_eight (n : Nat) (h1 : 10000000 ≤ n) (h2 : n < 100000000) :
    formatDateFromKey (n : Int) =
      .ok ([Char.ofNat (48 + n / 1000 % 10), Char.ofNat (48 + n / 100 % 10), '/',
        Char.ofNat (48 + n / 10 % 10), Char.ofNat (48 + n % 10), '/',
        Char.ofNat (48 + n / 10000000 % 10), Char.ofNat (48 + n / 1000000 % 10),
        Char.ofNat (48 + n / 100000 % 10), Char.ofNat (48 + n / 10000 % 10),
        ' ', 'G', 'M', 'T']) := by
  have hi : strconvItoa (n : Int) = natDigits n := by
    simp [strconvItoa]
  simp only [formatDateFromKey, hi]
  rw [natDigits_eight n h1 h2]
  rfl

/-! ## The claims -/

theorem parseLine_valid (st : ParseState) (ts url : GoString) (d : Int)
    (hts : '|' ∉ ts) (hurl : '|' ∉ url) (hkey : getDateKey ts = .ok d) :
    hitCount (parseLine st (ts ++ '|' :: url)).dateUrlHits d url =
        some ((hitCount st.dateUrlHits d url).getD 0 + 1) ∧
      ∀ (d2 : Int) (url2 : GoString), (d2, url2) ≠ (d, url) →
        hitCount (parseLine st (ts ++ '|' :: url)).dateUrlHits d2 url2 =
          hitCount st.dateUrlHits d2 url2 := by
  have other : ∀ (uh new : UrlCounts) (d2 : Int) (url2 : GoString), (d2, url2) ≠ (d, url) →
      (mapGet st.dateUrlHits d = some uh ∨ (mapGet st.dateUrlHits d = none ∧ uh = [])) →
      (∀ u, u ≠ url → mapGet new u = mapGet uh u) →
      hitCount (mapSet st.dateUrlHits d new) d2 url2 = hitCount st.dateUrlHits d2 url2 := by
    intro uh new d2 url2 hne hold hnew
    unfold hitCount
    by_cases hd : d2 = d
    · subst hd
      have hu : url2 ≠ url := fun e => hne (by rw [e])
      rw [mapGet_mapSet_same]
      rcases hold with h | ⟨h, rfl⟩
      · rw [h]
        exact hnew url2 hu
      · rw [h]
        simp only
        rw [hnew url2 hu]
        rfl
    · rw [mapGet_mapSet_ne _ _ _ _ hd]
  unfold parseLine
  rw [stringsSplit_two ts url '|' hts hurl]
  simp only [hkey]
  cases hget : mapGet st.dateUrlHits d with
  | none =>
    simp only
    constructor
    · simp [hitCount, mapGet_mapSet_same, hget]
    · intro d2 url2 hne
      exact other [] _ d2 url2 hne (Or.inr ⟨hget, rfl⟩)
        (fun u hu => mapGet_mapSet_ne _ _ _ _ hu)
  | some uh =>
    simp only
    cases hget2 : mapGet uh url with
    | none =>
      simp only
      constructor
      · simp [hitCount, mapGet_mapSet_same, hget, hget2]
      · intro d2 url2 hne
        exact other uh _ d2 url2 hne (Or.inl hget) (fun u hu => mapGet_mapSet_ne _ _ _ _ hu)
    | some n =>
      simp only
      constructor
      · simp [hitCount, mapGet_mapSet_same, hget, hget2]
      · intro d2 url2 hne
        exact other uh _ d2 url2 hne (Or.inl hget) (fun u hu => mapGet_mapSet_ne _ _ _ _ hu)

/-- C1: for every sequence of lines `L` and every line `ts|url` with exactly
one `|` whose `ts` parses as a signed 64-bit integer, `parseData` on `L`
followed by that line differs from `parseData` on `L` in exactly one place:
the count under day `getDateKey ts` and URL `url` (the text after the `|`,
unmodified) is larger by 1, or is 1 if the entry was absent; every other
(day, URL) count is unchanged. -/
theorem parseData_valid_line (L : List GoString) (ts url : GoString) (t : Int)
    (hts : '|' ∉ ts) (hurl : '|' ∉ url) (hparse : strconvParseInt ts = .ok t) :
    ∃ (d : Int) (tbl tbl2 : HitTable) (ds ds2 : List Int),
      getDateKey ts = .ok d ∧
      parseData (Scanner.mk (L) none) = .ok (tbl, ds) ∧
      parseData (Scanner.mk (L ++ [ts ++ '|' :: url]) none) = .ok (tbl2, ds2) ∧
      hitCount tbl2 d url = some ((hitCount tbl d url).getD 0 + 1) ∧
      ∀ (d2 : Int) (url2 : GoString), (d2, url2) ≠ (d, url) →
        hitCount tbl2 d2 url2 = hitCount tbl d2 url2 := by
  have hkey := getDateKey_of_parse ts t hparse
  obtain ⟨h1, h2⟩ := parseLine_valid (parseLoop L) ts url _ hts hurl hkey
  refine ⟨_, _, _, _, _, hkey, rfl, rfl, ?_, ?_⟩
  · simp only [parseLoop_append]
    exact h1
  · simp only [parseLoop_append]
    exact h2

theorem parseData_valid_line_witness :
    ∃ (d : Int) (tbl tbl2 : HitTable) (ds ds2 : List Int),
      getDateKey "1700000001".toList = .ok d ∧
      parseData (Scanner.mk (["1700000000|/a".toList]) none) = .ok (tbl, ds) ∧
      parseData (Scanner.mk (["1700000000|/a".toList] ++ ["1700000001".toList ++ '|' :: "/a".toList]) none) = .ok (tbl2, ds2) ∧
      hitCount tbl2 d "/a".toList = some ((hitCount tbl d "/a".toList).getD 0 + 1) ∧
      ∀ (d2 : Int) (url2 : GoString), (d2, url2) ≠ (d, "/a".toList) →
        hitCount tbl2 d2 url2 = hitCount tbl d2 url2 :=
  parseData_valid_line ["1700000000|/a".toList] "1700000001".toList "/a".toList 1700000001
    (by decide) (by decide) (by decide)

theorem parseLine_skip (st : ParseState) (line : GoString)
    (hbad : line.count '|' ≠ 1 ∨
      ∃ e, strconvParseInt (line.takeWhile (fun c => decide (c ≠ '|'))) = .error e) :
    parseLine st line = st := by
  have hlen := stringsSplit_length line '|'
  have hhead := stringsSplit_head line '|'
  unfold parseLine
  split
  · rename_i ts url hsplit
    rw [hsplit] at hlen hhead
    simp only [List.length_cons, List.length_nil, List.head?_cons, Option.some.injEq] at hlen hhead
    rcases hbad with h | ⟨e, he⟩
    · omega
    · rw [← hhead] at he
      rw [getDateKey_error_of_parse ts e he]
  · rfl

/-- Among the lines the scanner delivers, a line that does not contain exactly
one `|`, or whose text before the `|` does not parse as a signed 64-bit
integer, is skipped: table and date list are the same as without the line,
and the loop itself raises no error. -/
theorem parseData_skip_line (L1 L2 : List GoString) (line : GoString)
    (hbad : line.count '|' ≠ 1 ∨
      ∃ e, strconvParseInt (line.takeWhile (fun c => decide (c ≠ '|'))) = .error e) :
    parseData (Scanner.mk (L1 ++ line :: L2) none) =
        parseData (Scanner.mk (L1 ++ L2) none) ∧
      ∃ r, parseData (Scanner.mk (L1 ++ line :: L2) none) = .ok r := by
  have e : parseLoop (L1 ++ line :: L2) = parseLoop (L1 ++ L2) := by
    simp only [parseLoop, List.foldl_append, List.foldl_cons]
    rw [parseLine_skip _ line hbad]
  simp only [parseData, e]
  exact ⟨trivial, _, rfl⟩

theorem parseData_skip_line_witness :
    parseData (Scanner.mk (["1700000000|/a".toList] ++ "not-a-valid-line".toList :: ["1700086400|/c".toList]) none) =
      parseData (Scanner.mk (["1700000000|/a".toList] ++ ["1700086400|/c".toList]) none) ∧
    ∃ r, parseData (Scanner.mk (["1700000000|/a".toList] ++ "not-a-valid-line".toList :: ["1700086400|/c".toList]) none) = .ok r :=
  parseData_skip_line ["1700000000|/a".toList] ["1700086400|/c".toList]
    "not-a-valid-line".toList (Or.inl (by decide))

/-- C3: for every timestamp text that parses as a signed 64-bit integer `t`
whose UTC calendar date (the proleptic Gregorian date of day `⌊t / 86400⌋`
counted from 1970-01-01) has year `Y` from 0 on (0..9999 in particular), month
`M` and day `D`, `getDateKey` returns `Y*10000 + M*100 + D` with no error; so
every timestamp
with the same `⌊t / 86400⌋` gets the same key; 1700000000 and 1700000001 give
20231114, 1700086400 gives 20231115 and -1 gives 19691231. -/
theorem getDateKey_civil (s : GoString) (t : Int) (Y M D : Nat)
    (hs : strconvParseInt s = .ok t) (hv : validDate Y M D)
    (hday : t / 86400 = civilDayNumber Y M D) :
    getDateKey s = .ok ((Y : Int) * 10000 + (M : Int) * 100 + (D : Int)) ∧
      (∀ (s2 : GoString) (t2 : Int), strconvParseInt s2 = .ok t2 → t2 / 86400 = t / 86400 →
        getDateKey s2 = getDateKey s) ∧
      getDateKey "1700000000".toList = .ok 20231114 ∧
      getDateKey "1700000001".toList = .ok 20231114 ∧
      getDateKey "1700086400".toList = .ok 20231115 ∧
      getDateKey "-1".toList = .ok 19691231 := by
  have h1 := getDateKey_civil_aux s t Y M D hs hv hday
  refine ⟨?_, ?_, by decide, by decide, by decide, by decide⟩
  · rw [h1]
    push_cast
    rfl
  · intro s2 t2 hs2 he
    rw [h1, getDateKey_civil_aux s2 t2 Y M D hs2 hv (he.trans hday)]

theorem getDateKey_civil_witness :
    getDateKey "1709596800".toList = .ok ((2024 : Int) * 10000 + (3 : Int) * 100 + (5 : Int)) :=
  (getDateKey_civil "1709596800".toList 1709596800 2024 3 5 (by decide)
    ⟨by decide, by decide, by decide, by decide⟩
    (by rw [civilDayNumber, daysBeforeYear_eq, daysBeforeYear_eq]; decide)).1

/-- C4, at the failing input: `getDateKey` accepts the timestamp -62135596800
(1 January of year 1, UTC) and returns the key 10101, whose text has five
characters, so that `formatDateFromKey` fails on it with `Invalid date key`
and `main` ends on `log.Fatal` for the one-line input `-62135596800|/a`. The
same happens past year 9999: 253402300800 gives the nine-digit key
100000101. -/
theorem formatDateFromKey_getDateKey_fails :
    getDateKey "-62135596800".toList = .ok 10101 ∧
      formatDateFromKey 10101 = .error "Invalid date key: 10101".toList ∧
      mainReport id (Scanner.mk ["-62135596800|/a".toList] none) =
        Output.mk [] (some "Invalid date key: 10101".toList) ∧
      getDateKey "253402300800".toList = .ok 100000101 ∧
      formatDateFromKey 100000101 = .error "Invalid date key: 100000101".toList := by
  decide

/-- C5: for every timestamp whose UTC calendar date `Y-M-D` has a four-digit
year (1000..9999), `formatDateFromKey` applied to the key `getDateKey` returns
succeeds with the text `MM/DD/YYYY GMT` of that date, month and day in two
digits, the year in four; a timestamp on 2024-03-05 UTC (1709596800) gives
`03/05/2024 GMT`. -/
theorem formatDateFromKey_getDateKey (s : GoString) (t : Int) (Y M D : Nat)
    (hs : strconvParseInt s = .ok t) (hY1 : 1000 ≤ Y) (hY2 : Y ≤ 9999) (hv : validDate Y M D)
    (hday : t / 86400 = civilDayNumber Y M D) :
    (∃ key, getDateKey s = .ok key ∧
      formatDateFromKey key =
        .ok (twoDigits M ++ '/' :: twoDigits D ++ '/' :: fourDigits Y ++ " GMT".toList)) ∧
    (∃ key, getDateKey "1709596800".toList = .ok key ∧
      formatDateFromKey key = .ok "03/05/2024 GMT".toList) := by
  refine ⟨⟨_, getDateKey_civil_aux s t Y M D hs hv hday, ?_⟩, ⟨20240305, by decide, by decide⟩⟩
  obtain ⟨hM1, hM, hD1, hD⟩ := hv
  have hD31 : D ≤ 31 := by
    have : ∀ l : Bool, ∀ m : Fin 13, daysInMonth l m.val ≤ 31 := by decide
    exact le_trans hD (this (gregorianLeap Y) ⟨M, by omega⟩)
  rw [formatDateFromKey_eight _ (by omega) (by omega)]
  have a1 : (Y * 10000 + M * 100 + D) / 1000 % 10 = M / 10 % 10 := by omega
  have a2 : (Y * 10000 + M * 100 + D) / 100 % 10 = M % 10 := by omega
  have a3 : (Y * 10000 + M * 100 + D) / 10 % 10 = D / 10 % 10 := by omega
  have a4 : (Y * 10000 + M * 100 + D) % 10 = D % 10 := by omega
  have a5 : (Y * 10000 + M * 100 + D) / 10000000 % 10 = Y / 1000 % 10 := by omega
  have a6 : (Y * 10000 + M * 100 + D) / 1000000 % 10 = Y / 100 % 10 := by omega
  have a7 : (Y * 10000 + M * 100 + D) / 100000 % 10 = Y / 10 % 10 := by omega
  have a8 : (Y * 10000 + M * 100 + D) / 10000 % 10 = Y % 10 := by omega
  rw [a1, a2, a3, a4, a5, a6, a7, a8]
  rfl

theorem formatDateFromKey_getDateKey_witness :
    (∃ key, getDateKey "1700000000".toList = .ok key ∧
      formatDateFromKey key =
        .ok (twoDigits 11 ++ '/' :: twoDigits 14 ++ '/' :: fourDigits 2023 ++ " GMT".toList)) ∧
    (∃ key, getDateKey "1709596800".toList = .ok key ∧
      formatDateFromKey key = .ok "03/05/2024 GMT".toList) :=
  formatDateFromKey_getDateKey "1700000000".toList 1700000000 2023 11 14 (by decide)
    (by decide) (by decide) ⟨by decide, by decide, by decide, by decide⟩
    (by rw [civilDayNumber, daysBeforeYear_eq, daysBeforeYear_eq]; decide)

/-- C6, at the failing input: the decimal text of the key -1000101 is
`-1000101`, a sign and seven digits, not eight digits; its length is 8, so
`formatDateFromKey` returns no error but a text with the year `-100` after the
second slash. The key is
the one `getDateKey` returns for the timestamp -65322892800 (1 January of year
-100, UTC). -/
theorem formatDateFromKey_negative_key :
    strconvItoa (-1000101) = "-1000101".toList ∧
      (strconvItoa (-1000101)).all isDigit = false ∧
      formatDateFromKey (-1000101) = .ok "01/01/-100 GMT".toList ∧
      getDateKey "-65322892800".toList = .ok (-1000101) := by
  decide

/-- C8, at the failing input: -62198755200 is 1 January and -62167305600 is
31 December of year -1 (UTC), 364 days later; `getDateKey` accepts both and
returns -10101 for the earlier day and -11231 for the later day, so the later
day has the smaller key. -/
theorem getDateKey_order_negative_year :
    strconvParseInt "-62198755200".toList = .ok (-62198755200) ∧
      strconvParseInt "-62167305600".toList = .ok (-62167305600) ∧
      (-62198755200 : Int) / 86400 < (-62167305600 : Int) / 86400 ∧
      getDateKey "-62198755200".toList = .ok (-10101) ∧
      getDateKey "-62167305600".toList = .ok (-11231) ∧
      (-11231 : Int) < -10101 := by
  decide

/-- C7: for every sequence of lines on which `parseData` succeeds, the date
list it returns is strictly ascending by integer value: no key appears twice
and each key is smaller than the one after it. -/
theorem parseData_dates_strictly_ascending (scanner : Scanner) (tbl : HitTable)
    (dates : List Int) (h : parseData scanner = .ok (tbl, dates)) :
    dates.Sorted (fun a b => a < b) ∧ dates.Nodup ∧
      ∀ (i : Nat) (hi : i + 1 < dates.length),
        dates.get ⟨i, by omega⟩ < dates.get ⟨i + 1, hi⟩ := by
  have hinv := parseLoop_inv scanner.lines
  have hs : dates.Sorted (fun a b => a < b) := by
    unfold parseData at h
    cases herr : scanner.err with
    | some e =>
      rw [herr] at h
      cases h
    | none =>
      rw [herr] at h
      simp only [Except.ok.injEq, Prod.mk.injEq] at h
      rw [← h.2]
      apply sortInts_strict
      rw [hinv.1]
      exact hinv.2
  refine ⟨hs, ?_, ?_⟩
  · exact hs.imp (fun hab => ne_of_lt hab)
  · intro i hi
    exact List.pairwise_iff_get.1 hs ⟨i, by omega⟩ ⟨i + 1, hi⟩ (by simp)

theorem parseData_dates_strictly_ascending_witness :
    [(20231114 : Int), 20231115].Sorted (fun a b => a < b) ∧ [(20231114 : Int), 20231115].Nodup ∧
      ∀ (i : Nat) (hi : i + 1 < [(20231114 : Int), 20231115].length),
        [(20231114 : Int), 20231115].get ⟨i, by omega⟩ <
          [(20231114 : Int), 20231115].get ⟨i + 1, hi⟩ :=
  parseData_dates_strictly_ascending
    (Scanner.mk ["1700086400|/c".toList, "1700000000|/a".toList, "1700086400|/c".toList] none)
    [(20231115, [("/c".toList, 2)]), (20231114, [("/a".toList, 1)])] [20231114, 20231115]
    (by decide)

/-- C9: for every day bucket, whatever the order in which it is enumerated,
in the list that `main` prints after `sort.Sort` with `urlHitList.Less` the
hit counts are non-increasing from first to last: for any two entries A and B,
if A has more hits than B then A comes before B. -/
theorem sorted_urlHits_descending (enumerated : UrlCounts) (out : List UrlHit)
    (h : SortContract urlHitLess (enumerated.map toUrlHit) out) :
    out.Pairwise (fun a b => a.Hits ≥ b.Hits) ∧
      ∀ (i j : Nat) (hi : i < out.length) (hj : j < out.length),
        (out.get ⟨i, hi⟩).Hits > (out.get ⟨j, hj⟩).Hits → i < j := by
  have hp : out.Pairwise (fun a b => a.Hits ≥ b.Hits) := by
    refine h.2.imp ?_
    intro a b hab
    simp only [urlHitLess, decide_eq_false_iff_not] at hab
    omega
  refine ⟨hp, ?_⟩
  intro i j hi hj hgt
  by_contra hnot
  rcases Nat.lt_or_ge j i with hlt | hge
  · have := List.pairwise_iff_get.1 hp ⟨j, hj⟩ ⟨i, hi⟩ (by simpa using hlt)
    omega
  · have e : i = j := by omega
    subst e
    omega

theorem sorted_urlHits_descending_witness :
    (sortedUrlHits [("/b".toList, 1), ("/a".toList, 2), ("/c".toList, 1)]).Pairwise
        (fun a b => a.Hits ≥ b.Hits) ∧
      ∀ (i j : Nat)
        (hi : i < (sortedUrlHits [("/b".toList, 1), ("/a".toList, 2), ("/c".toList, 1)]).length)
        (hj : j < (sortedUrlHits [("/b".toList, 1), ("/a".toList, 2), ("/c".toList, 1)]).length),
        ((sortedUrlHits [("/b".toList, 1), ("/a".toList, 2), ("/c".toList, 1)]).get ⟨i, hi⟩).Hits >
          ((sortedUrlHits [("/b".toList, 1), ("/a".toList, 2), ("/c".toList, 1)]).get ⟨j, hj⟩).Hits →
        i < j :=
  sorted_urlHits_descending [("/b".toList, 1), ("/a".toList, 2), ("/c".toList, 1)]
    (sortedUrlHits [("/b".toList, 1), ("/a".toList, 2), ("/c".toList, 1)])
    (sortSort_contract _)

theorem int64TextValue_eq_none_iff (s : GoString) :
    int64TextValue s = none ↔ ∃ e, strconvParseInt s = .error e := by
  constructor
  · intro h
    cases hp : strconvParseInt s with
    | error e => exact ⟨e, rfl⟩
    | ok t =>
      rw [strconvParseInt_eq_ok_iff, h] at hp
      cases hp
  · rintro ⟨e, he⟩
    cases hv : int64TextValue s with
    | none => rfl
    | some t =>
      rw [← strconvParseInt_eq_ok_iff, he] at hv
      cases hv

/-- C10: `getDateKey` returns an error if and only if the timestamp text is
not a base-10 integer in the signed 64-bit range, that is, not an optional
sign followed by one or more decimal digits whose value lies in
`-2^63 .. 2^63-1`. It rejects the empty text, text with surrounding spaces,
text with a fractional part and values outside the 64-bit range, and it
accepts negative values. -/
theorem getDateKey_error_iff (s : GoString) :
    ((∃ e, getDateKey s = .error e) ↔ int64TextValue s = none) ∧
      getDateKey "".toList = .error .errSyntax ∧
      getDateKey " 1700000000".toList = .error .errSyntax ∧
      getDateKey "1700000000 ".toList = .error .errSyntax ∧
      getDateKey "1700000000.5".toList = .error .errSyntax ∧
      getDateKey "9223372036854775808".toList = .error .errRange ∧
      getDateKey "-9223372036854775809".toList = .error .errRange ∧
      getDateKey "-9223372036854775808".toList = .ok 2922770265961204 ∧
      getDateKey "9223372036854775807".toList = .ok 2922770265961204 ∧
      getDateKey "-86400".toList = .ok 19691231 := by
  refine ⟨?_, by decide, by decide, by decide, by decide, by decide, by decide,
    by decide, by decide, by decide⟩
  rw [int64TextValue_eq_none_iff]
  constructor
  · rintro ⟨e, he⟩
    cases hp : strconvParseInt s with
    | error e2 => exact ⟨e2, rfl⟩
    | ok t =>
      rw [getDateKey_of_parse s t hp] at he
      cases he
  · rintro ⟨e, he⟩
    exact ⟨e, getDateKey_error_of_parse s e he⟩


/-! ## What a line contributes -/

theorem parseLine_of_lineEvent_none (st : ParseState) (text : GoString)
    (h : lineEvent text = none) : parseLine st text = st := by
  unfold lineEvent at h
  unfold parseLine
  split
  · rename_i ts url hs
    rw [hs] at h
    simp only at h
    split
    · rfl
    · rename_i d hd
      rw [hd] at h
      cases h
  · rfl

theorem lineEvent_two (ts url : GoString) (d : Int) (hts : '|' ∉ ts) (hurl : '|' ∉ url)
    (hkey : getDateKey ts = .ok d) : lineEvent (ts ++ '|' :: url) = some (d, url) := by
  unfold lineEvent
  rw [stringsSplit_two ts url '|' hts hurl]
  simp only [hkey]

/-- A line that contributes `(d, url)` is the text `ts|url` with no `|` in `ts`
or `url` and `getDateKey ts = d`. -/
theorem lineEvent_some (text : GoString) (d : Int) (url : GoString)
    (h : lineEvent text = some (d, url)) :
    ∃ ts, text = ts ++ '|' :: url ∧ '|' ∉ ts ∧ '|' ∉ url ∧ getDateKey ts = .ok d := by
  have key : ∀ (s : GoString) (a b : GoString), stringsSplit s '|' = [a, b] →
      s = a ++ '|' :: b ∧ '|' ∉ a ∧ '|' ∉ b := by
    intro s
    induction s with
    | nil =>
      intro a b hs
      simp [stringsSplit] at hs
    | cons c cs ih =>
      intro a b hs
      unfold stringsSplit at hs
      by_cases hc : c = '|'
      · rw [if_pos hc] at hs
        simp only [List.cons.injEq] at hs
        obtain ⟨ha, hb⟩ := hs
        subst ha
        have hcount := stringsSplit_length cs '|'
        rw [hb] at hcount
        simp only [List.length_singleton] at hcount
        have hnm : '|' ∉ cs := by
          intro hm
          have := List.count_pos_iff.2 hm
          omega
        have hb2 := stringsSplit_of_not_mem cs '|' hnm
        rw [hb] at hb2
        simp only [List.cons.injEq, and_true] at hb2
        subst hb2
        subst hc
        exact ⟨rfl, by simp, hnm⟩
      · rw [if_neg hc] at hs
        cases hsp : stringsSplit cs '|' with
        | nil => exact absurd hsp (stringsSplit_ne_nil cs '|')
        | cons p ps =>
          rw [hsp] at hs
          simp only [List.cons.injEq] at hs
          obtain ⟨ha, hb⟩ := hs
          subst ha hb
          obtain ⟨e, n1, n2⟩ := ih p b hsp
          refine ⟨by rw [e]; rfl, ?_, n2⟩
          intro hm
          rcases List.mem_cons.1 hm with h1 | h1
          · exact hc h1.symm
          · exact n1 h1
  unfold lineEvent at h
  split at h
  · rename_i ts url2 hs
    split at h
    · cases h
    · rename_i d2 hd
      simp only [Option.some.injEq, Prod.mk.injEq] at h
      obtain ⟨h1, h2⟩ := h
      subst h1 h2
      obtain ⟨e, n1, n2⟩ := key text ts url2 hs
      exact ⟨ts, e, n1, n2, hd⟩
  · cases h

theorem validLine_iff (text : GoString) : validLine text = true ↔ lineEvent text ≠ none := by
  have hlen := stringsSplit_length text '|'
  have hhead := stringsSplit_head text '|'
  unfold validLine lineEvent
  cases hsp : stringsSplit text '|' with
  | nil => exact absurd hsp (stringsSplit_ne_nil text '|')
  | cons a r =>
    rw [hsp] at hlen hhead
    simp only [List.head?_cons, Option.some.injEq] at hhead
    rw [← hhead]
    cases r with
    | nil =>
      simp only [List.length_singleton] at hlen
      have hc : ¬ text.count '|' = 1 := by omega
      simp [hc]
    | cons b r2 =>
      cases r2 with
      | nil =>
        simp only [List.length_cons, List.length_nil] at hlen
        have hc : text.count '|' = 1 := by omega
        cases hg : getDateKey a <;> simp [hc, hg]
      | cons c r3 =>
        simp only [List.length_cons] at hlen
        have hc : ¬ text.count '|' = 1 := by omega
        simp [hc]

theorem parseLine_of_lineEvent_some (st : ParseState) (text : GoString) (d : Int)
    (url : GoString) (h : lineEvent text = some (d, url)) :
    parseLine st text =
      match mapGet st.dateUrlHits d with
      | some uh =>
        ParseState.mk (mapSet st.dateUrlHits d (mapSet uh url ((mapGet uh url).getD 0 + 1)))
          st.dates
      | none => ParseState.mk (mapSet st.dateUrlHits d [(url, 1)]) (st.dates ++ [d]) := by
  obtain ⟨ts, rfl, hts, hurl, hkey⟩ := lineEvent_some text d url h
  unfold parseLine
  rw [stringsSplit_two ts url '|' hts hurl]
  simp only [hkey]
  cases hget : mapGet st.dateUrlHits d with
  | none => rfl
  | some uh =>
    simp only
    cases hget2 : mapGet uh url with
    | none => rfl
    | some n => rfl

/-! ## Invariants of the table -/

theorem mem_mapSet {κ ν : Type} [DecidableEq κ] (m : List (κ × ν)) (k : κ) (v : ν)
    (p : κ × ν) (h : p ∈ mapSet m k v) : p = (k, v) ∨ p ∈ m := by
  induction m with
  | nil =>
    simp only [mapSet, List.mem_singleton] at h
    exact Or.inl h
  | cons q m ih =>
    obtain ⟨k1, v1⟩ := q
    unfold mapSet at h
    by_cases hk : k1 = k
    · rw [if_pos hk] at h
      rcases List.mem_cons.1 h with h1 | h1
      · exact Or.inl h1
      · exact Or.inr (List.mem_cons_of_mem _ h1)
    · rw [if_neg hk] at h
      rcases List.mem_cons.1 h with h1 | h1
      · exact Or.inr (by rw [h1]; exact List.mem_cons_self _ _)
      · rcases ih h1 with h2 | h2
        · exact Or.inl h2
        · exact Or.inr (List.mem_cons_of_mem _ h2)

theorem mapGet_mem {κ ν : Type} [DecidableEq κ] (m : List (κ × ν)) (k : κ) (v : ν)
    (h : mapGet m k = some v) : (k, v) ∈ m := by
  induction m with
  | nil => simp [mapGet] at h
  | cons q m ih =>
    obtain ⟨k1, v1⟩ := q
    unfold mapGet at h
    by_cases hk : k1 = k
    · rw [if_pos hk] at h
      simp only [Option.some.injEq] at h
      rw [hk, h]
      exact List.mem_cons_self _ _
    · rw [if_neg hk] at h
      exact List.mem_cons_of_mem _ (ih h)

theorem mapGet_of_mem {κ ν : Type} [DecidableEq κ] (m : List (κ × ν)) (k : κ) (v : ν)
    (hn : (mapKeys m).Nodup) (h : (k, v) ∈ m) : mapGet m k = some v := by
  induction m with
  | nil => simp at h
  | cons q m ih =>
    obtain ⟨k1, v1⟩ := q
    simp only [mapKeys, List.map_cons, List.nodup_cons] at hn
    unfold mapGet
    rcases List.mem_cons.1 h with h1 | h1
    · simp only [Prod.mk.injEq] at h1
      rw [if_pos h1.1.symm, h1.2]
    · have hk : ¬ k1 = k := by
        intro e
        apply hn.1
        rw [e]
        exact List.mem_map.2 ⟨(k, v), h1, rfl⟩
      rw [if_neg hk]
      exact ih hn.2 h1

theorem nodup_mapKeys_mapSet {κ ν : Type} [DecidableEq κ] (m : List (κ × ν)) (k : κ) (v : ν)
    (h : (mapKeys m).Nodup) : (mapKeys (mapSet m k v)).Nodup := by
  by_cases hk : k ∈ mapKeys m
  · rw [mapKeys_mapSet_of_mem m k v hk]
    exact h
  · rw [mapKeys_mapSet_of_not_mem m k v hk, List.nodup_append]
    refine ⟨h, by simp, ?_⟩
    intro a ha hb
    simp only [List.mem_singleton] at hb
    subst hb
    exact hk ha

theorem parseLine_tableInv (st : ParseState) (text : GoString)
    (h : TableInv st.dateUrlHits) : TableInv (parseLine st text).dateUrlHits := by
  cases he : lineEvent text with
  | none =>
    rw [parseLine_of_lineEvent_none st text he]
    exact h
  | some ev =>
    obtain ⟨d, url⟩ := ev
    rw [parseLine_of_lineEvent_some st text d url he]
    cases hget : mapGet st.dateUrlHits d with
    | none =>
      simp only
      intro p hp
      rcases mem_mapSet _ _ _ p hp with rfl | hm
      · refine ⟨by simp, by simp [mapKeys], ?_⟩
        intro q hq
        simp only [List.mem_singleton] at hq
        rw [hq]
      · exact h p hm
    | some uh =>
      simp only
      intro p hp
      rcases mem_mapSet _ _ _ p hp with rfl | hm
      · obtain ⟨_, hnd, hpos⟩ := h (d, uh) (mapGet_mem _ _ _ hget)
        refine ⟨?_, nodup_mapKeys_mapSet _ _ _ hnd, ?_⟩
        · intro hnil
          have := mapGet_mapSet_same uh url ((mapGet uh url).getD 0 + 1)
          simp only at hnil
          rw [hnil] at this
          simp [mapGet] at this
        · intro q hq
          rcases mem_mapSet _ _ _ q hq with rfl | hq2
          · simp
          · exact hpos q hq2
      · exact h p hm

theorem foldl_parseLine_tableInv (L : List GoString) (st : ParseState)
    (h : TableInv st.dateUrlHits) : TableInv (L.foldl parseLine st).dateUrlHits := by
  induction L generalizing st with
  | nil => exact h
  | cons x xs ih => exact ih _ (parseLine_tableInv st x h)

theorem parseLoop_tableInv (L : List GoString) : TableInv (parseLoop L).dateUrlHits :=
  foldl_parseLine_tableInv L _ (fun p hp => by simp at hp)

/-- On success `parseData` returns the table and the sorted dates of the
loop. -/
theorem parseData_eq_ok (scanner : Scanner) (tbl : HitTable) (dates : List Int)
    (h : parseData scanner = .ok (tbl, dates)) :
    tbl = (parseLoop scanner.lines).dateUrlHits ∧
      dates = sortInts (parseLoop scanner.lines).dates := by
  unfold parseData at h
  cases herr : scanner.err with
  | some e =>
    rw [herr] at h
    cases h
  | none =>
    rw [herr] at h
    simp only [Except.ok.injEq, Prod.mk.injEq] at h
    exact ⟨h.1.symm, h.2.symm⟩

theorem mem_sortInts (xs : List Int) (d : Int) : d ∈ sortInts xs ↔ d ∈ xs :=
  List.mem_insertionSort _

/-- C12: for every valid line `ts|url` and every `N ≥ 1`, `parseData` on the
input made of `N` copies of that line returns the date list with the single
key `getDateKey ts` and a table whose only bucket has the single entry `url`
with count exactly `N`. -/
theorem parseData_replicate (ts url : GoString) (t : Int) (N : Nat)
    (hts : '|' ∉ ts) (hurl : '|' ∉ url) (hparse : strconvParseInt ts = .ok t) (hN : 1 ≤ N) :
    ∃ d : Int, getDateKey ts = .ok d ∧
      parseData (Scanner.mk (List.replicate N (ts ++ '|' :: url)) none) =
        .ok ([(d, [(url, N)])], [d]) := by
  have hkey := getDateKey_of_parse ts t hparse
  refine ⟨_, hkey, ?_⟩
  have hev := lineEvent_two ts url _ hts hurl hkey
  have loop : ∀ n : Nat, parseLoop (List.replicate (n + 1) (ts ++ '|' :: url)) =
      ParseState.mk [(dateKeyOf (absDate (timeAbs t)), [(url, n + 1)])]
        [dateKeyOf (absDate (timeAbs t))] := by
    intro n
    induction n with
    | zero =>
      simp only [List.replicate, parseLoop, List.foldl_cons, List.foldl_nil]
      rw [parseLine_of_lineEvent_some _ _ _ _ hev]
      simp [mapGet, mapSet]
    | succ n ih =>
      rw [List.replicate_succ', parseLoop_append, ih, parseLine_of_lineEvent_some _ _ _ _ hev]
      simp [mapGet, mapSet]
  obtain ⟨n, rfl⟩ : ∃ n, N = n + 1 := ⟨N - 1, by omega⟩
  simp only [parseData, loop n]
  rfl

theorem parseData_replicate_witness :
    ∃ d : Int, getDateKey "1700000000".toList = .ok d ∧
      parseData (Scanner.mk (List.replicate 3 ("1700000000".toList ++ '|' :: "/a".toList)) none) =
        .ok ([(d, [("/a".toList, 3)])], [d]) :=
  parseData_replicate "1700000000".toList "/a".toList 1700000000 3 (by decide) (by decide)
    (by decide) (by decide)

/-- C13: for every sequence of lines on which `parseData` succeeds, the keys
in the returned date list are exactly the keys of the returned table, every
bucket of the table is non-empty and every count in every bucket is at least
1: no date without a record is reported. -/
theorem parseData_keys_and_counts (scanner : Scanner) (tbl : HitTable) (dates : List Int)
    (h : parseData scanner = .ok (tbl, dates)) :
    (∀ d : Int, d ∈ dates ↔ d ∈ mapKeys tbl) ∧
      (∀ d : Int, d ∈ dates ↔ ∃ bucket, mapGet tbl d = some bucket) ∧
      (∀ p ∈ tbl, p.2 ≠ []) ∧
      (∀ p ∈ tbl, ∀ q ∈ p.2, 1 ≤ q.2) ∧
      (∀ (d : Int) (url : GoString) (n : Nat), hitCount tbl d url = some n → 1 ≤ n) := by
  obtain ⟨e1, e2⟩ := parseData_eq_ok scanner tbl dates h
  have hinv := parseLoop_inv scanner.lines
  have htab := parseLoop_tableInv scanner.lines
  rw [← e1] at htab
  have hk : ∀ d : Int, d ∈ dates ↔ d ∈ mapKeys tbl := by
    intro d
    rw [e2, mem_sortInts, hinv.1, e1]
  refine ⟨hk, ?_, fun p hp => (htab p hp).1, fun p hp => (htab p hp).2.2, ?_⟩
  · intro d
    rw [hk d]
    constructor
    · intro hm
      cases hg : mapGet tbl d with
      | none => exact absurd hm ((mapGet_eq_none_iff tbl d).1 hg)
      | some b => exact ⟨b, rfl⟩
    · rintro ⟨b, hb⟩
      by_contra hn
      rw [← mapGet_eq_none_iff, hb] at hn
      cases hn
  · intro d url n hc
    unfold hitCount at hc
    cases hg : mapGet tbl d with
    | none =>
      rw [hg] at hc
      cases hc
    | some b =>
      rw [hg] at hc
      simp only at hc
      exact (htab (d, b) (mapGet_mem _ _ _ hg)).2.2 (url, n) (mapGet_mem _ _ _ hc)

theorem parseData_keys_and_counts_witness :
    (∀ d : Int, d ∈ [(20231114 : Int), 20231115] ↔
        d ∈ mapKeys [((20231115 : Int), [("/c".toList, 2)]), (20231114, [("/a".toList, 1)])]) ∧
      (∀ d : Int, d ∈ [(20231114 : Int), 20231115] ↔
        ∃ bucket, mapGet [((20231115 : Int), [("/c".toList, 2)]), (20231114, [("/a".toList, 1)])]
          d = some bucket) ∧
      (∀ p ∈ [((20231115 : Int), [("/c".toList, 2)]), (20231114, [("/a".toList, 1)])],
        p.2 ≠ []) ∧
      (∀ p ∈ [((20231115 : Int), [("/c".toList, 2)]), (20231114, [("/a".toList, 1)])],
        ∀ q ∈ p.2, 1 ≤ q.2) ∧
      (∀ (d : Int) (url : GoString) (n : Nat),
        hitCount [((20231115 : Int), [("/c".toList, 2)]), (20231114, [("/a".toList, 1)])]
          d url = some n → 1 ≤ n) :=
  parseData_keys_and_counts
    (Scanner.mk ["1700086400|/c".toList, "1700000000|/a".toList, "1700086400|/c".toList] none)
    [(20231115, [("/c".toList, 2)]), (20231114, [("/a".toList, 1)])] [20231114, 20231115]
    (by decide)

/-- C16: with the line source a list of lines plus an optional read error,
`parseData` returns an error if and only if the line source reports a read
error, and then it returns that error and neither table nor date list; on a
source without read error it succeeds whatever the lines contain. -/
theorem parseData_error_iff (scanner : Scanner) :
    ((∃ e, parseData scanner = .error e) ↔ scanner.err ≠ none) ∧
      (∀ e, scanner.err = some e → parseData scanner = .error e) ∧
      (∀ lines : List GoString, ∃ r, parseData (Scanner.mk lines none) = .ok r) := by
  refine ⟨?_, ?_, fun lines => ⟨_, rfl⟩⟩
  · cases herr : scanner.err with
    | none => simp [parseData, herr]
    | some e => simp [parseData, herr]
  · intro e he
    simp [parseData, he]

/-- C17: on the empty input (zero lines) `parseData` returns an empty table,
an empty date list and no error, and the rendered report has no lines,
whatever the enumeration order of maps. -/
theorem parseData_empty (enum : UrlCounts → UrlCounts) :
    parseData (Scanner.mk [] none) = .ok ([], []) ∧
      mainReport enum (Scanner.mk [] none) = Output.mk [] none := by
  constructor <;> rfl

/-! ## Conservation of hits -/

theorem sum_mapSet_of_none {κ ν : Type} [DecidableEq κ] (f : ν → Nat) (m : List (κ × ν))
    (k : κ) (v : ν) (h : mapGet m k = none) :
    ((mapSet m k v).map (fun p => f p.2)).sum = (m.map (fun p => f p.2)).sum + f v := by
  induction m with
  | nil => simp [mapSet]
  | cons q m ih =>
    obtain ⟨k1, v1⟩ := q
    unfold mapGet at h
    by_cases hk : k1 = k
    · rw [if_pos hk] at h
      cases h
    · rw [if_neg hk] at h
      unfold mapSet
      rw [if_neg hk]
      simp only [List.map_cons, List.sum_cons, ih h]
      omega

theorem sum_mapSet_of_some {κ ν : Type} [DecidableEq κ] (f : ν → Nat) (m : List (κ × ν))
    (k : κ) (v old : ν) (h : mapGet m k = some old) :
    ((mapSet m k v).map (fun p => f p.2)).sum + f old =
      (m.map (fun p => f p.2)).sum + f v := by
  induction m with
  | nil => simp [mapGet] at h
  | cons q m ih =>
    obtain ⟨k1, v1⟩ := q
    unfold mapGet at h
    by_cases hk : k1 = k
    · rw [if_pos hk] at h
      simp only [Option.some.injEq] at h
      subst h
      unfold mapSet
      rw [if_pos hk]
      simp only [List.map_cons, List.sum_cons]
      omega
    · rw [if_neg hk] at h
      unfold mapSet
      rw [if_neg hk]
      simp only [List.map_cons, List.sum_cons]
      have := ih h
      omega

theorem bucketTotal_add_hit (uh : UrlCounts) (url : GoString) :
    bucketTotal (mapSet uh url ((mapGet uh url).getD 0 + 1)) = bucketTotal uh + 1 := by
  unfold bucketTotal
  cases hg : mapGet uh url with
  | none =>
    have := sum_mapSet_of_none (fun n : Nat => n) uh url (0 + 1) hg
    simpa using this
  | some n =>
    have this : ((mapSet uh url (n + 1)).map Prod.snd).sum + n =
        (uh.map Prod.snd).sum + (n + 1) :=
      sum_mapSet_of_some (fun n : Nat => n) uh url (n + 1) n hg
    simp only [Option.getD_some]
    omega

theorem parseLine_totalHits (st : ParseState) (text : GoString) :
    totalHits (parseLine st text).dateUrlHits =
      totalHits st.dateUrlHits + (if validLine text = true then 1 else 0) := by
  cases he : lineEvent text with
  | none =>
    have hv : ¬ validLine text = true := by
      rw [validLine_iff, he]
      simp
    rw [parseLine_of_lineEvent_none st text he, if_neg hv]
    rfl
  | some ev =>
    obtain ⟨d, url⟩ := ev
    have hv : validLine text = true := by
      rw [validLine_iff, he]
      simp
    rw [parseLine_of_lineEvent_some st text d url he, if_pos hv]
    unfold totalHits
    cases hget : mapGet st.dateUrlHits d with
    | none =>
      simp only
      rw [sum_mapSet_of_none bucketTotal _ _ _ hget]
      simp [bucketTotal]
    | some uh =>
      simp only
      have := sum_mapSet_of_some bucketTotal st.dateUrlHits d
        (mapSet uh url ((mapGet uh url).getD 0 + 1)) uh hget
      rw [bucketTotal_add_hit] at this
      omega

theorem foldl_parseLine_totalHits (L : List GoString) (st : ParseState) :
    totalHits (L.foldl parseLine st).dateUrlHits =
      totalHits st.dateUrlHits + L.countP validLine := by
  induction L generalizing st with
  | nil => simp
  | cons x xs ih =>
    rw [List.foldl_cons, ih, parseLine_totalHits, List.countP_cons]
    omega

/-- C18: conservation of hits. For every sequence of lines on which
`parseData` succeeds, the sum of all counts over all buckets of the returned
table equals the number of input lines that contain exactly one `|` and whose
timestamp part `getDateKey` accepts. -/
theorem parseData_totalHits (scanner : Scanner) (tbl : HitTable) (dates : List Int)
    (h : parseData scanner = .ok (tbl, dates)) :
    totalHits tbl = scanner.lines.countP validLine ∧
      totalHits tbl = (scanner.lines.filter validLine).length := by
  obtain ⟨e1, _⟩ := parseData_eq_ok scanner tbl dates h
  have := foldl_parseLine_totalHits scanner.lines (ParseState.mk [] [])
  have e : totalHits tbl = scanner.lines.countP validLine := by
    rw [e1]
    simpa [parseLoop, totalHits] using this
  exact ⟨e, by rw [e, List.countP_eq_length_filter]⟩

set_option maxRecDepth 100000 in
theorem parseData_totalHits_witness :
    totalHits [((20231114 : Int), [("/a".toList, 2), ("/b".toList, 1)]),
        (20231115, [("/c".toList, 2)])] = exampleInput.lines.countP validLine ∧
      totalHits [((20231114 : Int), [("/a".toList, 2), ("/b".toList, 1)]),
        (20231115, [("/c".toList, 2)])] = (exampleInput.lines.filter validLine).length :=
  parseData_totalHits exampleInput
    [(20231114, [("/a".toList, 2), ("/b".toList, 1)]), (20231115, [("/c".toList, 2)])]
    [20231114, 20231115] (by decide)

/-! ## The table as a function of the multiset of lines -/

theorem parseLine_hitCount (st : ParseState) (text : GoString) (d : Int) (url : GoString)
    (he : lineEvent text = some (d, url)) :
    hitCount (parseLine st text).dateUrlHits d url =
        some ((hitCount st.dateUrlHits d url).getD 0 + 1) ∧
      ∀ (d2 : Int) (url2 : GoString), (d2, url2) ≠ (d, url) →
        hitCount (parseLine st text).dateUrlHits d2 url2 = hitCount st.dateUrlHits d2 url2 := by
  obtain ⟨ts, rfl, hts, hurl, hkey⟩ := lineEvent_some text d url he
  exact parseLine_valid st ts url d hts hurl hkey

/-- The count `parseData` stores under a day and a URL is the number of lines
that contribute that day and URL; there is no entry when there is no such
line. -/
theorem hitCount_parseLoop (L : List GoString) (d : Int) (url : GoString) :
    hitCount (parseLoop L).dateUrlHits d url =
      if L.countP (fun l => decide (lineEvent l = some (d, url))) = 0 then none
      else some (L.countP (fun l => decide (lineEvent l = some (d, url)))) := by
  induction L using List.reverseRecOn with
  | nil => rfl
  | append_singleton L x ih =>
    rw [parseLoop_append, List.countP_append]
    simp only [List.countP_cons, List.countP_nil, Nat.zero_add]
    cases he : lineEvent x with
    | none =>
      rw [parseLine_of_lineEvent_none _ _ he, ih]
      simp
    | some ev =>
      obtain ⟨d2, url2⟩ := ev
      obtain ⟨h1, h2⟩ := parseLine_hitCount (parseLoop L) x d2 url2 he
      by_cases heq : (d, url) = (d2, url2)
      · simp only [Prod.mk.injEq] at heq
        obtain ⟨rfl, rfl⟩ := heq
        rw [h1, ih]
        by_cases hc : L.countP (fun l => decide (lineEvent l = some (d, url))) = 0
        · simp [hc]
        · simp [hc]
      · rw [h2 d url heq, ih]
        have hne : ¬ (some (d2, url2) = some (d, url)) := by
          intro e
          apply heq
          simp only [Option.some.injEq] at e
          exact e.symm
        simp [hne]

theorem mem_mapKeys_iff_hitCount (tbl : HitTable) (hinv : TableInv tbl) (d : Int) :
    d ∈ mapKeys tbl ↔ ∃ url, hitCount tbl d url ≠ none := by
  constructor
  · intro hm
    cases hg : mapGet tbl d with
    | none => exact absurd hm ((mapGet_eq_none_iff tbl d).1 hg)
    | some b =>
      obtain ⟨hne, hnd, _⟩ := hinv (d, b) (mapGet_mem _ _ _ hg)
      cases b with
      | nil => exact absurd rfl hne
      | cons q r =>
        refine ⟨q.1, ?_⟩
        unfold hitCount
        rw [hg]
        simp only
        rw [mapGet_of_mem (q :: r) q.1 q.2 hnd (List.mem_cons_self _ _)]
        simp
  · rintro ⟨url, hu⟩
    by_contra hn
    rw [← mapGet_eq_none_iff] at hn
    apply hu
    unfold hitCount
    rw [hn]

theorem sortInts_eq_of_perm (xs ys : List Int) (h : xs.Perm ys) : sortInts xs = sortInts ys := by
  have p1 : (sortInts xs).Perm xs := List.perm_insertionSort _ xs
  have p2 : (sortInts ys).Perm ys := List.perm_insertionSort _ ys
  have s1 : (sortInts xs).Sorted (· ≤ ·) := List.sorted_insertionSort (· ≤ ·) xs
  have s2 : (sortInts ys).Sorted (· ≤ ·) := List.sorted_insertionSort (· ≤ ·) ys
  exact List.eq_of_perm_of_sorted (p1.trans (h.trans p2.symm)) s1 s2

/-- C19: order independence of aggregation. For every sequence of lines and
every permutation of it, `parseData` returns the same table (the same day
keys, and under every day the same URLs with the same counts) and the same
sorted date list. -/
theorem parseData_perm (L1 L2 : List GoString) (hperm : L1.Perm L2) :
    ∃ (tbl1 tbl2 : HitTable) (dates : List Int),
      parseData (Scanner.mk L1 none) = .ok (tbl1, dates) ∧
      parseData (Scanner.mk L2 none) = .ok (tbl2, dates) ∧
      (∀ d : Int, d ∈ mapKeys tbl1 ↔ d ∈ mapKeys tbl2) ∧
      (∀ (d : Int) (url : GoString), hitCount tbl1 d url = hitCount tbl2 d url) := by
  have hc : ∀ (d : Int) (url : GoString),
      hitCount (parseLoop L1).dateUrlHits d url = hitCount (parseLoop L2).dateUrlHits d url := by
    intro d url
    rw [hitCount_parseLoop, hitCount_parseLoop, hperm.countP_eq]
  have hk : ∀ d : Int, d ∈ mapKeys (parseLoop L1).dateUrlHits ↔
      d ∈ mapKeys (parseLoop L2).dateUrlHits := by
    intro d
    rw [mem_mapKeys_iff_hitCount _ (parseLoop_tableInv L1),
      mem_mapKeys_iff_hitCount _ (parseLoop_tableInv L2)]
    simp only [hc]
  have hd : sortInts (parseLoop L1).dates = sortInts (parseLoop L2).dates := by
    apply sortInts_eq_of_perm
    have i1 := parseLoop_inv L1
    have i2 := parseLoop_inv L2
    rw [i1.1, i2.1]
    exact (List.perm_ext_iff_of_nodup i1.2 i2.2).2 hk
  refine ⟨_, _, _, rfl, ?_, hk, hc⟩
  simp only [parseData, hd]

theorem parseData_perm_witness :
    ∃ (tbl1 tbl2 : HitTable) (dates : List Int),
      parseData (Scanner.mk ["1700086400|/c".toList, "1700000000|/a".toList] none) =
        .ok (tbl1, dates) ∧
      parseData (Scanner.mk ["1700000000|/a".toList, "1700086400|/c".toList] none) =
        .ok (tbl2, dates) ∧
      (∀ d : Int, d ∈ mapKeys tbl1 ↔ d ∈ mapKeys tbl2) ∧
      (∀ (d : Int) (url : GoString), hitCount tbl1 d url = hitCount tbl2 d url) :=
  parseData_perm ["1700086400|/c".toList, "1700000000|/a".toList]
    ["1700000000|/a".toList, "1700086400|/c".toList] (List.Perm.swap _ _ _)

/-! ## The report -/

theorem sortContract_hits (data out : List UrlHit) (h : SortContract urlHitLess data out) :
    out.Pairwise (fun a b => a.Hits ≥ b.Hits) := by
  refine h.2.imp ?_
  intro a b hab
  simp only [urlHitLess, decide_eq_false_iff_not] at hab
  omega

/-- Two results of `sort.Sort` on two arrangements of the same elements hold
the same elements with the same sequence of hit counts, and are equal when no
two elements have the same hit count. -/
theorem sortContract_unique (l1 l2 out1 out2 : List UrlHit) (hperm : l1.Perm l2)
    (c1 : SortContract urlHitLess l1 out1) (c2 : SortContract urlHitLess l2 out2) :
    out1.Perm out2 ∧ out1.map UrlHit.Hits = out2.map UrlHit.Hits ∧
      ((l2.map UrlHit.Hits).Nodup → out1 = out2) := by
  have hp : out1.Perm out2 := c1.1.trans (hperm.trans c2.1.symm)
  have s1 := sortContract_hits l1 out1 c1
  have s2 := sortContract_hits l2 out2 c2
  refine ⟨hp, ?_, ?_⟩
  · have m1 : (out1.map UrlHit.Hits).Sorted (fun a b => a ≥ b) := List.pairwise_map.2 s1
    have m2 : (out2.map UrlHit.Hits).Sorted (fun a b => a ≥ b) := List.pairwise_map.2 s2
    exact List.eq_of_perm_of_sorted (hp.map UrlHit.Hits) m1 m2
  · intro hnd
    have n2 : (out2.map UrlHit.Hits).Nodup := ((c2.1.map UrlHit.Hits).nodup_iff).2 hnd
    have n1 : (out1.map UrlHit.Hits).Nodup := ((hp.map UrlHit.Hits).nodup_iff).2 n2
    have strict : ∀ out : List UrlHit, out.Pairwise (fun a b => a.Hits ≥ b.Hits) →
        (out.map UrlHit.Hits).Nodup → out.Sorted (fun a b => a.Hits > b.Hits) := by
      intro out hs hn
      have hne : out.Pairwise (fun a b => a.Hits ≠ b.Hits) := List.pairwise_map.1 hn
      refine (hs.and hne).imp ?_
      intro a b hab
      have := hab.1
      have := hab.2
      omega
    haveI : IsAntisymm UrlHit (fun a b => a.Hits > b.Hits) :=
      ⟨fun a b hab hba => absurd hab (by omega)⟩
    exact List.eq_of_perm_of_sorted hp (strict out1 s1 n1) (strict out2 s2 n2)

theorem sortedUrlHits_perm (enum1 enum2 : UrlCounts → UrlCounts)
    (h1 : ∀ b, (enum1 b).Perm b) (h2 : ∀ b, (enum2 b).Perm b) (b : UrlCounts) :
    (sortedUrlHits (enum1 b)).Perm (sortedUrlHits (enum2 b)) ∧
      (sortedUrlHits (enum1 b)).map UrlHit.Hits = (sortedUrlHits (enum2 b)).map UrlHit.Hits ∧
      ((b.map Prod.snd).Nodup → sortedUrlHits (enum1 b) = sortedUrlHits (enum2 b)) := by
  have hp : ((enum1 b).map toUrlHit).Perm ((enum2 b).map toUrlHit) :=
    ((h1 b).trans (h2 b).symm).map toUrlHit
  obtain ⟨a1, a2, a3⟩ := sortContract_unique _ _ _ _ hp (sortSort_contract _)
    (sortSort_contract ((enum2 b).map toUrlHit))
  refine ⟨a1, a2, ?_⟩
  intro hnd
  apply a3
  have e : ((enum2 b).map toUrlHit).map UrlHit.Hits = (enum2 b).map Prod.snd := by
    simp [toUrlHit, List.map_map, Function.comp_def]
  rw [e]
  exact (((h2 b).map Prod.snd).nodup_iff).2 hnd

theorem renderDates_enum_indep (enum1 enum2 : UrlCounts → UrlCounts)
    (h1 : ∀ b, (enum1 b).Perm b) (h2 : ∀ b, (enum2 b).Perm b) (parsed : HitTable)
    (hnt : ∀ p ∈ parsed, (p.2.map Prod.snd).Nodup) (dates : List Int) (printed : List GoString) :
    renderDates enum1 parsed dates printed = renderDates enum2 parsed dates printed := by
  induction dates generalizing printed with
  | nil => rfl
  | cons date rest ih =>
    unfold renderDates
    cases hf : formatDateFromKey date with
    | error e => rfl
    | ok s =>
      simp only
      have hb : (((mapGet parsed date).getD []).map Prod.snd).Nodup := by
        cases hg : mapGet parsed date with
        | none => simp
        | some b => exact hnt (date, b) (mapGet_mem _ _ _ hg)
      rw [(sortedUrlHits_perm enum1 enum2 h1 h2 _).2.2 hb]
      exact ih _

/-- The report of a run without fatal error: under the header of every day
of the date list, in order, the lines of the day. -/
theorem renderDates_printed (enum : UrlCounts → UrlCounts) (parsed : HitTable)
    (dates : List Int) (printed : List GoString)
    (h : (renderDates enum parsed dates printed).fatal = none) :
    (renderDates enum parsed dates printed).printed =
      printed ++ dates.flatMap (fun d => dayHeader d :: dayLines enum parsed d) := by
  induction dates generalizing printed with
  | nil => simp [renderDates]
  | cons date rest ih =>
    unfold renderDates at h ⊢
    cases hf : formatDateFromKey date with
    | error e =>
      rw [hf] at h
      simp at h
    | ok s =>
      rw [hf] at h
      simp only at h ⊢
      rw [ih _ h]
      simp [List.flatMap_cons, dayHeader, dayLines, hf]

set_option maxRecDepth 100000 in
/-- C11: on the six-line example input `parseData` returns the date list
`[20231114, 20231115]` with the buckets `/a: 2, /b: 1` and `/c: 2`, and the
report rendered from them, whatever the enumeration order of the buckets, is
exactly the five lines `11/14/2023 GMT`, `/a 2`, `/b 1`, `11/15/2023 GMT`,
`/c 2`, with no fatal error. -/
theorem exampleInput_report (enum : UrlCounts → UrlCounts) (henum : ∀ b, (enum b).Perm b) :
    parseData exampleInput =
        .ok ([(20231114, [("/a".toList, 2), ("/b".toList, 1)]), (20231115, [("/c".toList, 2)])],
          [20231114, 20231115]) ∧
      mainReport enum exampleInput =
        Output.mk ["11/14/2023 GMT".toList, "/a 2".toList, "/b 1".toList,
          "11/15/2023 GMT".toList, "/c 2".toList] none := by
  have hp : parseData exampleInput =
      .ok ([(20231114, [("/a".toList, 2), ("/b".toList, 1)]), (20231115, [("/c".toList, 2)])],
        [20231114, 20231115]) := by decide
  refine ⟨hp, ?_⟩
  unfold mainReport
  rw [hp]
  simp only
  rw [renderDates_enum_indep enum id henum (fun b => List.Perm.refl b) _ (by decide)]
  decide

set_option maxRecDepth 100000 in
theorem exampleInput_report_witness :
    parseData exampleInput =
        .ok ([(20231114, [("/a".toList, 2), ("/b".toList, 1)]), (20231115, [("/c".toList, 2)])],
          [20231114, 20231115]) ∧
      mainReport List.reverse exampleInput =
        Output.mk ["11/14/2023 GMT".toList, "/a 2".toList, "/b 1".toList,
          "11/15/2023 GMT".toList, "/c 2".toList] none :=
  exampleInput_report List.reverse (fun b => List.reverse_perm b)

set_option maxRecDepth 100000 in
/-- C14, counterexample: on the two lines `1700000000|/a` and `1700000000|/b`
the bucket of the day holds `/a` and `/b` with one hit each; enumerated in
the order of insertion the report lists `/a 1` before `/b 1`, enumerated in
the reverse order it lists `/b 1` before `/a 1`. Both orders are enumerations
of the bucket, so the rendered lines are not a function of the input alone. -/
theorem report_depends_on_enumeration :
    (∀ b : UrlCounts, (id b).Perm b) ∧ (∀ b : UrlCounts, (List.reverse b).Perm b) ∧
      mainReport id (Scanner.mk ["1700000000|/a".toList, "1700000000|/b".toList] none) =
        Output.mk ["11/14/2023 GMT".toList, "/a 1".toList, "/b 1".toList] none ∧
      mainReport List.reverse
          (Scanner.mk ["1700000000|/a".toList, "1700000000|/b".toList] none) =
        Output.mk ["11/14/2023 GMT".toList, "/b 1".toList, "/a 1".toList] none ∧
      mainReport id (Scanner.mk ["1700000000|/a".toList, "1700000000|/b".toList] none) ≠
        mainReport List.reverse
          (Scanner.mk ["1700000000|/a".toList, "1700000000|/b".toList] none) := by
  refine ⟨fun b => List.Perm.refl b, fun b => List.reverse_perm b, by decide, by decide,
    by decide⟩

/-- C14, amended: for every input and every two enumeration orders of the
per-day maps, the sorted lists of a day hold the same entries with the same
sequence of hit counts, and the whole report is the same when no two URLs of
a day have the same hit count; only URLs with equal hit counts of one day can
change places. -/
theorem report_enumeration_independent (enum1 enum2 : UrlCounts → UrlCounts)
    (h1 : ∀ b, (enum1 b).Perm b) (h2 : ∀ b, (enum2 b).Perm b) (scanner : Scanner) :
    (∀ b : UrlCounts, (sortedUrlHits (enum1 b)).Perm (sortedUrlHits (enum2 b)) ∧
        (sortedUrlHits (enum1 b)).map UrlHit.Hits = (sortedUrlHits (enum2 b)).map UrlHit.Hits) ∧
      (∀ (tbl : HitTable) (dates : List Int), parseData scanner = .ok (tbl, dates) →
        (∀ p ∈ tbl, (p.2.map Prod.snd).Nodup) →
        mainReport enum1 scanner = mainReport enum2 scanner) ∧
      (∀ e, parseData scanner = .error e →
        mainReport enum1 scanner = mainReport enum2 scanner) := by
  refine ⟨?_, ?_, ?_⟩
  · intro b
    obtain ⟨a1, a2, _⟩ := sortedUrlHits_perm enum1 enum2 h1 h2 b
    exact ⟨a1, a2⟩
  · intro tbl dates hp hnt
    unfold mainReport
    rw [hp]
    exact renderDates_enum_indep enum1 enum2 h1 h2 tbl hnt dates []
  · intro e he
    unfold mainReport
    rw [he]

set_option maxRecDepth 100000 in
theorem report_enumeration_independent_witness :
    mainReport id exampleInput = mainReport List.reverse exampleInput :=
  (report_enumeration_independent id List.reverse (fun b => List.Perm.refl b)
    (fun b => List.reverse_perm b) exampleInput).2.1
    [(20231114, [("/a".toList, 2), ("/b".toList, 1)]), (20231115, [("/c".toList, 2)])]
    [20231114, 20231115] (by decide) (by decide)

theorem filter_url_of_mapGet (bucket : UrlCounts) (url : GoString) (n : Nat)
    (hnd : (mapKeys bucket).Nodup) (hg : mapGet bucket url = some n) :
    (bucket.map toUrlHit).filter (fun uh => decide (uh.Url = url)) = [UrlHit.mk url n] := by
  induction bucket with
  | nil => simp [mapGet] at hg
  | cons q r ih =>
    obtain ⟨k1, v1⟩ := q
    simp only [mapKeys, List.map_cons, List.nodup_cons] at hnd
    unfold mapGet at hg
    by_cases hk : k1 = url
    · rw [if_pos hk] at hg
      simp only [Option.some.injEq] at hg
      subst hk hg
      have hrest : (r.map toUrlHit).filter (fun uh => decide (uh.Url = k1)) = [] := by
        rw [List.filter_eq_nil_iff]
        intro uh hm
        obtain ⟨p, hp, rfl⟩ := List.mem_map.1 hm
        simp only [toUrlHit, decide_eq_true_eq]
        intro e
        apply hnd.1
        rw [← e]
        exact List.mem_map.2 ⟨p, hp, rfl⟩
      simp [toUrlHit, List.filter_cons, hrest]
    · rw [if_neg hk] at hg
      have := ih hnd.2 hg
      simp only [mapKeys] at this
      simp [toUrlHit, List.filter_cons, hk]
      simpa [toUrlHit] using this



theorem byteLen_replicate_x (n : Nat) : byteLen (List.replicate n 'x') = n := by
  induction n with
  | zero => rfl
  | succ n ih =>
    have e : Char.utf8Size 'x' = 1 := by decide
    simp only [byteLen, List.replicate_succ, List.map_cons, List.sum_cons, e] at ih ⊢
    omega

theorem newScanner_cons_of_lt (l : GoString) (rest : List GoString)
    (h : byteLen l < maxScanTokenSize) :
    newScanner (l :: rest) =
      Scanner.mk (dropCR l :: (newScanner rest).lines) (newScanner rest).err := by
  have hd : decide (byteLen l < maxScanTokenSize) = true := decide_eq_true h
  simp only [newScanner, List.takeWhile_cons, List.all_cons, hd, if_true, List.map_cons,
    Bool.true_and]

theorem newScanner_cons_of_not_lt (l : GoString) (rest : List GoString)
    (h : ¬ byteLen l < maxScanTokenSize) :
    newScanner (l :: rest) = Scanner.mk [] (some "bufio.Scanner: token too long".toList) := by
  have hd : decide (byteLen l < maxScanTokenSize) = false := decide_eq_false h
  simp only [newScanner, List.takeWhile_cons, List.all_cons, hd, List.map_nil, Bool.false_and]
  rfl

theorem parseData_of_err (lines : List GoString) (e : GoString) :
    parseData (Scanner.mk lines (some e)) = .error e := rfl

theorem newScanner_of_all_lt (fileLines : List GoString)
    (h : ∀ l ∈ fileLines, byteLen l < maxScanTokenSize) :
    newScanner fileLines = Scanner.mk (fileLines.map dropCR) none := by
  induction fileLines with
  | nil => rfl
  | cons l rest ih =>
    rw [newScanner_cons_of_lt l rest (h l (List.mem_cons_self _ _)),
      ih (fun x hx => h x (List.mem_cons_of_mem _ hx))]
    rfl

/-- Through the scanner of `main`, on a file whose lines all fit the buffer:
a line that, without its carriage return, does not contain exactly one `|` or
whose text before the `|` does not parse, changes nothing in the result of
`parseData`, and there is no error. -/
theorem parseData_skip_short_line (L1 L2 : List GoString) (line : GoString)
    (hfit : ∀ l ∈ L1 ++ line :: L2, byteLen l < maxScanTokenSize)
    (hbad : (dropCR line).count '|' ≠ 1 ∨
      ∃ e, strconvParseInt ((dropCR line).takeWhile (fun c => decide (c ≠ '|'))) = .error e) :
    parseData (newScanner (L1 ++ line :: L2)) = parseData (newScanner (L1 ++ L2)) ∧
      ∃ r, parseData (newScanner (L1 ++ line :: L2)) = .ok r := by
  have hfit2 : ∀ l ∈ L1 ++ L2, byteLen l < maxScanTokenSize := by
    intro l hl
    apply hfit
    rcases List.mem_append.1 hl with h | h
    · exact List.mem_append_left _ h
    · exact List.mem_append_right _ (List.mem_cons_of_mem _ h)
  rw [newScanner_of_all_lt _ hfit, newScanner_of_all_lt _ hfit2]
  simp only [List.map_append, List.map_cons]
  exact parseData_skip_line (L1.map dropCR) (L2.map dropCR) (dropCR line) hbad

theorem mainReport_of_error (enum : UrlCounts → UrlCounts) (scanner : Scanner) (e : GoString)
    (h : parseData scanner = .error e) : mainReport enum scanner = Output.mk [] (some e) := by
  unfold mainReport
  rw [h]

set_option maxRecDepth 100000 in
/-- C2, at the failing input: the file with the lines `1700000000|/a`, then
65536 times `x`, then `1700086400|/c`. The second line contains no `|`, so it
is a line to be dropped; but it does not fit the buffer of the scanner `main`
makes with `bufio.NewScanner`, `Scan` stops at it, and `parseData` returns the
error `bufio.Scanner: token too long` instead of the table and date list it
returns without that line; `main` ends on `log.Fatal` with nothing printed. -/
theorem parseData_long_line_error :
    (List.replicate 65536 'x').count '|' ≠ 1 ∧
      parseData (newScanner ["1700000000|/a".toList, List.replicate 65536 'x',
          "1700086400|/c".toList]) = .error "bufio.Scanner: token too long".toList ∧
      mainReport id (newScanner ["1700000000|/a".toList, List.replicate 65536 'x',
          "1700086400|/c".toList]) =
        Output.mk [] (some "bufio.Scanner: token too long".toList) ∧
      parseData (newScanner ["1700000000|/a".toList, "1700086400|/c".toList]) =
        .ok ([(20231114, [("/a".toList, 1)]), (20231115, [("/c".toList, 1)])],
          [20231114, 20231115]) := by
  have hbig : ¬ byteLen (List.replicate 65536 'x') < maxScanTokenSize := by
    rw [byteLen_replicate_x]
    decide
  have h1 : byteLen "1700000000|/a".toList < maxScanTokenSize := by decide
  have herr : parseData (newScanner ["1700000000|/a".toList, List.replicate 65536 'x',
      "1700086400|/c".toList]) = .error "bufio.Scanner: token too long".toList := by
    rw [newScanner_cons_of_lt _ _ h1, newScanner_cons_of_not_lt _ _ hbig]
    exact parseData_of_err _ _
  refine ⟨?_, herr, mainReport_of_error id _ _ herr, by decide⟩
  rw [List.count_replicate]
  decide

/-! ## The groups of the report -/

/-- What `main` has printed when the loop over the days ends: the groups of
the days whose key decodes, up to the first key that does not. -/
theorem renderDates_printed_prefix (enum : UrlCounts → UrlCounts) (parsed : HitTable)
    (dates : List Int) (printed : List GoString) :
    (renderDates enum parsed dates printed).printed =
      printed ++ (dates.takeWhile dateKeyDecodes).flatMap
        (fun d => dayHeader d :: dayLines enum parsed d) := by
  induction dates generalizing printed with
  | nil => simp [renderDates]
  | cons date rest ih =>
    unfold renderDates
    cases hf : formatDateFromKey date with
    | error e =>
      have hd : dateKeyDecodes date = false := by simp [dateKeyDecodes, hf]
      simp [List.takeWhile_cons, hd]
    | ok s =>
      have hd : dateKeyDecodes date = true := by simp [dateKeyDecodes, hf]
      simp only
      rw [ih]
      simp [List.takeWhile_cons, hd, List.flatMap_cons, dayHeader, dayLines, hf]

/-- The loop of `main` over the days ends without fatal error exactly when
every key decodes. -/
theorem renderDates_fatal (enum : UrlCounts → UrlCounts) (parsed : HitTable)
    (dates : List Int) (printed : List GoString) :
    (renderDates enum parsed dates printed).fatal = none ↔
      dates.all dateKeyDecodes = true := by
  induction dates generalizing printed with
  | nil => simp [renderDates]
  | cons date rest ih =>
    unfold renderDates
    cases hf : formatDateFromKey date with
    | error e =>
      have hd : dateKeyDecodes date = false := by simp [dateKeyDecodes, hf]
      simp [hd]
    | ok s =>
      have hd : dateKeyDecodes date = true := by simp [dateKeyDecodes, hf]
      simp only
      rw [ih]
      simp [hd]

/-- C15: for every day of the date list, the lines `main` prints under the
header of the day are a rearrangement of the bucket of the day. The report
`main` prints is, for the days in the order of the date list up to the first
key that does not decode, the header of the day followed by the lines of the
day (all the days when the run ends without fatal error); and for every day
of the date list these lines are printed from a list that is a permutation of
the entries of the bucket: every URL of the bucket is on exactly one line,
with exactly its count, and every line is an entry of the bucket. -/
theorem report_groups_perm_bucket (enum : UrlCounts → UrlCounts)
    (henum : ∀ b, (enum b).Perm b) (scanner : Scanner) (tbl : HitTable) (dates : List Int)
    (h : parseData scanner = .ok (tbl, dates)) :
    (mainReport enum scanner).printed =
        (dates.takeWhile dateKeyDecodes).flatMap
          (fun d => dayHeader d :: dayLines enum tbl d) ∧
      ((mainReport enum scanner).fatal = none ↔ dates.all dateKeyDecodes = true) ∧
      ((mainReport enum scanner).fatal = none →
        (mainReport enum scanner).printed =
          dates.flatMap (fun d => dayHeader d :: dayLines enum tbl d)) ∧
      (∀ date ∈ dates, ∃ (bucket : UrlCounts) (urlHits : List UrlHit),
        mapGet tbl date = some bucket ∧
        dayLines enum tbl date = urlHits.map urlHitLine ∧
        urlHits.Perm (bucket.map toUrlHit) ∧
        (∀ (url : GoString) (n : Nat), mapGet bucket url = some n →
          urlHits.filter (fun uh => decide (uh.Url = url)) = [UrlHit.mk url n]) ∧
        (∀ uh ∈ urlHits, mapGet bucket uh.Url = some uh.Hits)) := by
  obtain ⟨e1, e2⟩ := parseData_eq_ok scanner tbl dates h
  have hinv := parseLoop_inv scanner.lines
  have htab := parseLoop_tableInv scanner.lines
  rw [← e1] at htab
  have hmain : mainReport enum scanner = renderDates enum tbl dates [] := by
    unfold mainReport
    rw [h]
  have hpr := renderDates_printed_prefix enum tbl dates []
  have hfa := renderDates_fatal enum tbl dates []
  rw [← hmain] at hpr hfa
  simp only [List.nil_append] at hpr
  refine ⟨hpr, hfa, ?_, ?_⟩
  · intro hf
    rw [hpr, List.takeWhile_eq_self_iff.2]
    intro d hd
    exact List.all_eq_true.1 (hfa.1 hf) d hd
  · intro date hd
    rw [e2, mem_sortInts, hinv.1, ← e1] at hd
    cases hg : mapGet tbl date with
    | none => exact absurd hd ((mapGet_eq_none_iff tbl date).1 hg)
    | some bucket =>
      obtain ⟨_, hnd, _⟩ := htab (date, bucket) (mapGet_mem _ _ _ hg)
      have hperm : (sortedUrlHits (enum bucket)).Perm (bucket.map toUrlHit) :=
        (sortSort_contract _).1.trans ((henum bucket).map toUrlHit)
      refine ⟨bucket, sortedUrlHits (enum bucket), rfl, ?_, hperm, ?_, ?_⟩
      · simp [dayLines, hg]
      · intro url n hu
        have hf := hperm.filter (fun uh => decide (uh.Url = url))
        rw [filter_url_of_mapGet bucket url n hnd hu] at hf
        exact List.perm_singleton.1 hf
      · intro uh hm
        have hm2 := hperm.mem_iff.1 hm
        obtain ⟨p, hp, rfl⟩ := List.mem_map.1 hm2
        exact mapGet_of_mem bucket p.1 p.2 hnd hp

set_option maxRecDepth 100000 in
theorem report_groups_perm_bucket_witness :
    (mainReport List.reverse
        (Scanner.mk ["253402300800|/x".toList, "1700000000|/b".toList,
          "1700000000|/a".toList, "1700000001|/a".toList] none)).printed =
      ["11/14/2023 GMT".toList, "/a 2".toList, "/b 1".toList] ∧
    ([(20231114 : Int), 100000101].takeWhile dateKeyDecodes).flatMap
        (fun d => dayHeader d :: dayLines List.reverse
          [(100000101, [("/x".toList, 1)]),
            (20231114, [("/b".toList, 1), ("/a".toList, 2)])] d) =
      ["11/14/2023 GMT".toList, "/a 2".toList, "/b 1".toList] :=
  ⟨((report_groups_perm_bucket List.reverse (fun b => List.reverse_perm b)
      (Scanner.mk ["253402300800|/x".toList, "1700000000|/b".toList,
        "1700000000|/a".toList, "1700000001|/a".toList] none)
      [(100000101, [("/x".toList, 1)]), (20231114, [("/b".toList, 1), ("/a".toList, 2)])]
      [20231114, 100000101] (by decide)).1).trans (by decide), by decide⟩

end NyansaExercise
